import Mathlib

/-!
# Verification of the ngsim netlist parsing and circuit-model subsystem

Shallow embedding of `src/ngsim/netlist.py` (class `CircuitSection` and the
module-level helper functions).  Python strings are modelled as Lean `String`;
all Python string operations used by the source (`strip`, `lstrip`, `split`,
`join`, `upper`, `lower`) are implemented explicitly on the underlying
character lists so that they can be reasoned about.  Python `dict`s (which
preserve insertion order) are modelled as association lists with
update-in-place semantics.  The md5-derived unique identifiers are modelled
by the (assumed injective) hash *input* `str(i) + line`; fallible Python code
(`IndexError`, `KeyError`, the explicit `raise` statements) is modelled with
`Except`/`Option`.
-/

namespace Ngsim

/-- Python whitespace (`str.strip`, regex `\s`): space, tab, newline,
carriage return, vertical tab, form feed. -/
def isPyWs (c : Char) : Bool :=
  c = ' ' || c = '\t' || c = '\n' || c = '\r' || c = '\x0b' || c = '\x0c'

/-- Python `str.lstrip()`. -/
def pyLstrip (s : String) : String :=
  ⟨s.data.dropWhile isPyWs⟩

/-- Python `str.strip()`. -/
def pyStrip (s : String) : String :=
  ⟨((s.data.dropWhile isPyWs).reverse.dropWhile isPyWs).reverse⟩

/-- Python `str.split(sep)` for a one-character separator: splits at every
occurrence of `sep`, keeping empty parts (this is `List.splitOn`). -/
def pySplit (sep : Char) (s : String) : List String :=
  (s.data.splitOn sep).map String.mk

/-- Python `sep.join(xs)` for a one-character separator. -/
def pyJoin (sep : Char) (xs : List String) : String :=
  ⟨List.intercalate [sep] (xs.map String.data)⟩

/-- Decimal digit character. -/
def digitChar (d : Nat) : Char := Char.ofNat (48 + d)

/-- Helper for `natStr`: accumulate decimal digits, structurally recursive on
a fuel bound (any fuel above the digit count gives the same result). -/
def natStrGo : Nat → Nat → List Char → List Char
  | 0, _, acc => acc
  | fuel + 1, n, acc =>
    if n < 10 then digitChar (n % 10) :: acc
    else natStrGo fuel (n / 10) (digitChar (n % 10) :: acc)

/-- Python `str(i)` for a natural number: decimal representation. -/
def natStr (n : Nat) : String := ⟨natStrGo (n + 1) n []⟩

/-- One parsed netlist statement (the per-`uid` record built by
`CircuitSection.parse`): `instance`, `type`, `ports`, `location`, `args`.
The Python dict with those five keys (in that fixed insertion order) is
modelled as a structure; the ports dict is an insertion-ordered association
list. -/
structure Element where
  inst : String
  type : String
  ports : List (String × String)
  location : String
  args : List String
deriving DecidableEq, Repr

/-- The `CircuitSection.emap` class attribute: leading-prefix →
(category name, ordered port-role tuple). -/
def emap : List (String × String × List String) :=
  [("*",  ("comment",                        [])),
   (".",  ("statement",                      [])),
   ("A",  ("xspice",                         [])),
   ("B",  ("behavioral source",              ["n+", "n-"])),
   ("C",  ("capacitor",                      ["n+", "n-"])),
   ("D",  ("diode",                          ["n+", "n-"])),
   ("E",  ("vcvs",                           ["n+", "n-", "nc+", "nc-"])),
   ("F",  ("cccs",                           ["n+", "n-"])),
   ("G",  ("vccs",                           ["n+", "n-", "nc+", "nc-"])),
   ("H",  ("ccvs",                           ["n+", "n-"])),
   ("I",  ("isource",                        ["n+", "n-"])),
   ("J",  ("jfet",                           ["n1", "n2", "n3"])),
   ("K",  ("coupled inductor",               [])),
   ("L",  ("inductor",                       ["n+", "n-"])),
   ("M",  ("mosfet",                         ["n1", "n2", "n3", "n4"])),
   ("N",  ("numerical device gss",           [])),
   ("O",  ("lossy transmission line",        ["n1", "n2", "n3", "n4"])),
   ("P",  ("coupled multiconductor line",    [])),
   ("Q",  ("bjt",                            ["n1", "n2", "n3", "n4"])),
   ("R",  ("resistor",                       ["n+", "n-"])),
   ("S",  ("vcsw",                           ["n+", "n-", "nc+", "nc-"])),
   ("T",  ("lossless transmission line",     ["n1", "n2", "n3", "n4"])),
   ("U",  ("uniformely distributed rc line", ["n1", "n2", "n3"])),
   ("V",  ("vsource",                        ["n+", "n-"])),
   ("W",  ("icsw",                           ["n+", "n-"])),
   ("X",  ("subcircuit",                     [])),
   ("XC", ("capacitor",                      ["n1", "n2"])),
   ("XM", ("mosfet",                         ["n1", "n2", "n3", "n4"])),
   ("Y",  ("single lossy transmission line", ["n1", "n2", "n3", "n4"])),
   ("Z",  ("mesfet",                         ["n1", "n2", "n3"]))]

/-- Lookup in `emap` (Python `self.emap[elemtype]`); callers only use valid
keys, a missing key yields the default `("", [])`. -/
def emapGet (k : String) : String × List String :=
  ((emap.find? (fun p => p.1 = k)).map Prod.snd).getD ("", [])

/-- Errors raised while parsing: Python `IndexError` on a string index
(`line[1]`), `IndexError` on a list index (`line.split(" ")[1]`,
`list(params.keys())[0]`), `IndexError` popping an empty deque
(`hierarchy.pop()`), and the two explicit `raise Exception(...)` sites in
`identify_linetype` and `parse`. -/
inductive PErr where
  | stringIndex
  | listIndex
  | popEmpty
  | unknownElement
  | dupUid
deriving DecidableEq, Repr

/-- The message string carried by the raised Python exception. -/
def PErr.msg : PErr → String
  | .stringIndex => "string index out of range"
  | .listIndex => "list index out of range"
  | .popEmpty => "pop from an empty deque"
  | .unknownElement => "Linetype not understood by parser"
  | .dupUid => "uid not unique. Aborting."

/-- Python `str.upper()` on a one-character string (ASCII). -/
def charUpper (c : Char) : Char := c.toUpper

/-- Python `str.upper()` (ASCII). -/
def pyUpper (s : String) : String := ⟨s.data.map Char.toUpper⟩

/-- Python `str.lower()` (ASCII). -/
def pyLower (s : String) : String := ⟨s.data.map Char.toLower⟩

/-- `CircuitSection.identify_linetype`: reads `line[0]` and `line[1]`
(unconditionally, so a single-character line is an `IndexError`), forms a
two-letter prefix for `X` followed by `M`/`C`, otherwise a one-letter prefix,
and fails with `Linetype not understood by parser` when the prefix is not an
`emap` key. -/
def identify_linetype (line : String) : Except PErr String :=
  let l := pyLstrip line
  match l.data with
  | [] => .error .stringIndex
  | [_] => .error .stringIndex
  | c0 :: c1 :: _ =>
    let letter1 := charUpper c0
    let letter2 := charUpper c1
    let elemtype :=
      if letter1 = 'X' && (letter2 = 'M' || letter2 = 'C') then
        String.mk [letter1, letter2]
      else
        String.mk [letter1]
    if (emap.find? (fun p => p.1 = elemtype)).isSome then .ok elemtype
    else .error .unknownElement

/-- `CircuitSection.resolve_ports`: zip the category's port-role tuple with
the tokens after the instance name (`elems[1:len(port_list)+1]`); `zip`
truncates when the line is short. -/
def resolve_ports (line : String) (elemtype : String) : List (String × String) :=
  let port_list := (emapGet elemtype).2
  let elems := pySplit ' ' line
  port_list.zip ((elems.drop 1).take port_list.length)

/-- Regex `^$|^\.end$|^\s*\*` — the skipped lines in `CircuitSection.parse`:
empty, exactly `.end`, or a full-line comment. -/
def isSkip (line : String) : Bool :=
  line = "" || line = ".end" ||
    (match line.data.dropWhile isPyWs with
     | '*' :: _ => true
     | _ => false)

/-- Regex `^.subckt*`: any first character, then `subck`, then zero or more
`t` (so the trailing `t` is not actually required). -/
def isSubcktPat (line : String) : Bool :=
  match line.data with
  | _ :: 's' :: 'u' :: 'b' :: 'c' :: 'k' :: _ => true
  | _ => false

/-- Regex `^.control`: any first character, then `control`. -/
def isControlPat (line : String) : Bool :=
  match line.data with
  | _ :: 'c' :: 'o' :: 'n' :: 't' :: 'r' :: 'o' :: 'l' :: _ => true
  | _ => false

/-- Regex `^.endc`: any first character, then `endc`. -/
def isEndcPat (line : String) : Bool :=
  match line.data with
  | _ :: 'e' :: 'n' :: 'd' :: 'c' :: _ => true
  | _ => false

/-- Regex `^.ends.*`: any first character, then `ends`. -/
def isEndsPat (line : String) : Bool :=
  match line.data with
  | _ :: 'e' :: 'n' :: 'd' :: 's' :: _ => true
  | _ => false

/-- The element record the `else` branch of the `parse` loop builds for a
(stripped) line, given the current hierarchy location. -/
def lineElement (line : String) (location : String) : Except PErr Element := do
  let elemtype ← identify_linetype line
  let ports := resolve_ports line elemtype
  let nports := ports.length
  let itype := (emapGet elemtype).1
  let elems := pySplit ' ' line
  let args := elems.drop (nports + 1)
  match elems with
  | [] => .error .listIndex
  | instanceTok :: _ =>
    .ok { inst := instanceTok, type := itype, ports := ports,
          location := location, args := args }

/-- The md5-derived unique identifier, modelled by the hash input
`str(i) + line` (md5 assumed injective, as the source relies on). -/
def mkUid (i : Nat) (line : String) : String := natStr i ++ line

/-- Mutable state of the `parse` loop: the ordered elements dict, the
`inside_ctl_section` flag, and the hierarchy deque (append/pop on the
right). -/
structure PState where
  elements : List (String × Element)
  insideCtl : Bool
  hierarchy : List String
deriving DecidableEq, Repr

/-- One iteration of the `for i, line in enumerate(netlist)` loop of
`CircuitSection.parse`. -/
def parseStep (i : Nat) (rawline : String) (st : PState) : Except PErr PState := do
  let line := pyStrip rawline
  if isSkip line then
    .ok st
  else
    let st ←
      if isSubcktPat line then
        match (pySplit ' ' line).get? 1 with
        | none => .error .listIndex
        | some name => .ok { st with hierarchy := st.hierarchy ++ [name] }
      else .ok st
    let st ←
      if isControlPat line || st.insideCtl then
        .ok { st with insideCtl := !isEndcPat line }
      else do
        let e ← lineElement line (pyJoin '/' st.hierarchy)
        let uid := mkUid i line
        if (st.elements.find? (fun p => p.1 = uid)).isSome then
          .error .dupUid
        else
          .ok { st with elements := st.elements ++ [(uid, e)] }
    if isEndsPat line then
      match st.hierarchy with
      | [] => .error .popEmpty
      | _ => .ok { st with hierarchy := st.hierarchy.dropLast }
    else
      .ok st

/-- The `parse` loop over the remaining lines, `i` being the index of the
first of them. -/
def goParse (i : Nat) (lines : List String) (st : PState) : Except PErr PState :=
  match lines with
  | [] => .ok st
  | l :: rest => do goParse (i + 1) rest (← parseStep i l st)

/-- Initial parse state: empty dict, `inside_ctl_section = False`, hierarchy
deque seeded with `"root"`. -/
def initPState : PState := { elements := [], insideCtl := false, hierarchy := ["root"] }

/-- `CircuitSection.parse` on an already-split line list. -/
def parseLines (lines : List String) : Except PErr (List (String × Element)) :=
  (goParse 0 lines initPState).map PState.elements

/-- `CircuitSection.parse` on a string netlist (split on `"\n"`). -/
def parse (netlist : String) : Except PErr (List (String × Element)) :=
  parseLines (pySplit '\n' netlist)

/-- The line `CircuitSection.synthesize` emits for one element: instance,
then the space-joined port values when nonempty, then the space-joined args
when nonempty. -/
def synthLine (e : Element) : String :=
  let s := e.inst ++ " "
  let sp := pyJoin ' ' (e.ports.map Prod.snd)
  let s := if sp ≠ "" then s ++ sp ++ " " else s
  let sa := pyJoin ' ' e.args
  if sa ≠ "" then s ++ sa else s

/-- `CircuitSection.synthesize` followed by the `netlist` property's
`"".join`: the header comment line naming the source, a blank line, then one
line per element (plus a blank line after any element whose instance is
exactly `.ends`). -/
def synthesize (filename : String) (circuit : List (String × Element)) : String :=
  "* " ++ filename ++ "\n\n" ++
    String.join (circuit.map fun p =>
      synthLine p.2 ++ "\n" ++ (if p.2.inst = ".ends" then "\n" else ""))

/-! ## Python dict operations (insertion-ordered association lists) -/

/-- Python `d[k] = v`: update in place when the key is present, else append. -/
def dictInsert : List (String × α) → String → α → List (String × α)
  | [], k, v => [(k, v)]
  | (k', v') :: d, k, v =>
    if k' = k then (k, v) :: d else (k', v') :: dictInsert d k v

/-- Python `d[k]` (`none` models a `KeyError`). -/
def dictGet (d : List (String × α)) (k : String) : Option α :=
  (d.find? (fun p => p.1 = k)).map Prod.snd

/-- Python `d.pop(k)`: the removed value and the remaining dict (`none`
models a `KeyError`). -/
def dictPop : List (String × α) → String → Option (α × List (String × α))
  | [], _ => none
  | (k', v') :: d, k =>
    if k' = k then some (v', d)
    else (dictPop d k).map (fun p => (p.1, (k', v') :: p.2))

/-! ## Argument codec (`unpack_args`, `repack_args`, `replace_argument`) -/

/-- Python `elem.split("=", 1)`: split at the first `=`; a token without `=`
maps to `none`. -/
def splitEq1 (t : String) : String × Option String :=
  match t.data.dropWhile (fun c => c ≠ '=') with
  | [] => (t, none)
  | _ :: rest => (⟨t.data.takeWhile (fun c => c ≠ '=')⟩, some ⟨rest⟩)

/-- `unpack_args`: fold the token list into an insertion-ordered dict. -/
def unpack_args (args : List String) : List (String × Option String) :=
  args.foldl (fun d t => dictInsert d (splitEq1 t).1 (splitEq1 t).2) []

/-- Python truthiness of an argument value: `None` and `""` are falsy. -/
def pyTruthy : Option String → Bool
  | none => false
  | some s => !(s = "")

/-- `repack_args`: emit `k=v` for truthy values, else the bare key. -/
def repack_args (d : List (String × Option String)) : List String :=
  d.map (fun p => if pyTruthy p.2 then p.1 ++ "=" ++ (p.2.getD "") else p.1)

/-- `replace_argument(uid, cir, key, val)`.  The `if args[key]:` branch
replaces the value in place; the `else` branch is the rename loop of the
source (snapshot iteration with `pop`/re-insert and the upper-casing `tmp`
rebuild).  `none` models the `KeyError`s (`cir[uid]`, `args[key]`,
`args.pop(k)`). -/
def replace_argument (uid : String) (cir : List (String × Element))
    (key val : String) : Option (List (String × Element)) := do
  let elem ← dictGet cir uid
  let args0 := unpack_args elem.args
  let v ← dictGet args0 key
  let args ←
    if pyTruthy v then
      some (dictInsert args0 key (some val))
    else
      args0.foldlM (fun (args : List (String × Option String)) kv => do
        let k := kv.1
        let target := if k = key then val else k
        let (pv, args') ← dictPop args k
        let args := dictInsert args' target pv
        some (args.foldl (fun tmp p =>
          dictInsert tmp (if p.1 = key then pyUpper p.1 else p.1) p.2) []))
        args0
  some (dictInsert cir uid { elem with args := repack_args args })

/-! ## `CircuitSection.append` -/

/-- `CircuitSection.append(line)`.  The `while` loop of the source computes a
fresh md5 uid but its result is then overwritten: the uid actually inserted
under comes from `self.parse(line)` (hence hashes index `0`), so the loop is
modelled as the no-op it is.  `list(params.keys())[0]` on an empty parse
result is an `IndexError`. -/
def append (circuit : List (String × Element)) (line : String) :
    Except PErr (List (String × Element)) := do
  let params ← parse line
  match params with
  | [] => .error .listIndex
  | (uid, e) :: _ => .ok (dictInsert circuit uid e)

/-! ## `CircuitSection.match`

Python's `re.match(val, ...)` anchors at the start only (prefix semantics);
patterns are modelled by Mathlib's `RegularExpression Char`.  The source
passes `self.circuit[uid][key]` directly to `re.match`, so only the
string-valued fields (`instance`, `type`, `location`) are usable — a dict- or
list-valued field (`ports`, `args`) raises a `TypeError` in Python and is not
part of the model. -/

/-- The string-valued element fields usable as a `match`/`filter` key. -/
inductive MField where
  | inst
  | type
  | location
deriving DecidableEq, Repr

/-- Field access `self.circuit[uid][key]` for the string-valued keys. -/
def Element.getField (e : Element) : MField → String
  | .inst => e.inst
  | .type => e.type
  | .location => e.location

/-- Python `re.match(p, s)`: some (possibly empty) prefix of `s` is in the
language of `p`. -/
def reMatchB (p : RegularExpression Char) (s : String) : Bool :=
  (List.range (s.data.length + 1)).any (fun k => p.rmatch (s.data.take k))

/-- Python `re.fullmatch(p, s)`: the whole of `s` is in the language of `p`. -/
def reFullmatchB (p : RegularExpression Char) (s : String) : Bool :=
  p.rmatch s.data

/-- `CircuitSection.match(key, val)`: the uids (in iteration order) whose
field `re.match`es the pattern. -/
def cirMatch (circuit : List (String × Element)) (key : MField)
    (val : RegularExpression Char) : List String :=
  (circuit.filter (fun p => reMatchB val (p.2.getField key))).map Prod.fst

/-! ## `clean_netlist` (the text normalizer) -/

/-- Regex `^\+\s*$|^\s{,}$|^\*.*$`: empty continuation lines, blank lines and
full-line comments, dropped by the normalizer. -/
def dropPat (line : String) : Bool :=
  (match line.data with
   | '+' :: rest => rest.all isPyWs
   | _ => false) ||
  line.data.all isPyWs ||
  (match line.data with
   | '*' :: _ => true
   | _ => false)

/-- `re.sub("\$.*", "", line)`: strip the end-of-line comment. -/
def stripDollar (line : String) : String :=
  ⟨line.data.takeWhile (fun c => c ≠ '$')⟩

/-- The continuation-merging loop: a line beginning with `+` is appended to
the previous logical line with its `+` and following whitespace replaced by
one space (`re.sub("^\+\s{,}", " ", line)`).  `none` models the `IndexError`
of `netlist_b[-1]` when the very first line is a continuation. -/
def mergeCont (acc : List String) : List String → Option (List String)
  | [] => some acc.reverse
  | l :: rest =>
    match l.data with
    | '+' :: tl =>
      match acc with
      | [] => none
      | h :: t => mergeCont ((h ++ ⟨' ' :: tl.dropWhile isPyWs⟩) :: t) rest
    | _ => mergeCont (l :: acc) rest

/-- `re.sub("\t| {1,}", " ", line)`: each tab, and each maximal run of
spaces, becomes a single space (a mixed run of tabs and spaces therefore
yields several spaces).  Implemented as a single pass: `inRun` records
whether the previous character belonged to an (already emitted) space run. -/
def unifyWsGo (inRun : Bool) : List Char → List Char
  | [] => []
  | c :: rest =>
    if c = ' ' then
      if inRun then unifyWsGo true rest else ' ' :: unifyWsGo true rest
    else if c = '\t' then ' ' :: unifyWsGo false rest
    else c :: unifyWsGo false rest

/-- `re.sub("\t| {1,}", " ", line)` on a character list. -/
def unifyWs (l : List Char) : List Char := unifyWsGo false l

/-- `re.sub(" {1,}= {1,}", "=", line)`: a run of spaces, `=`, and a run of
spaces collapse to a bare `=` (both runs are required).  Structurally
recursive on a fuel bound; every step consumes at least one character, so
the list's length is enough fuel. -/
def eqSpacesF : Nat → List Char → List Char
  | 0, l => l
  | fuel + 1, l =>
    match l with
    | [] => []
    | ' ' :: rest =>
      match rest.dropWhile (fun c => c = ' ') with
      | '=' :: ' ' :: r3 => '=' :: eqSpacesF fuel (r3.dropWhile (fun c => c = ' '))
      | _ => ' ' :: eqSpacesF fuel rest
    | c :: rest => c :: eqSpacesF fuel rest

/-- `re.sub(" {1,}= {1,}", "=", line)` on a character list. -/
def eqSpaces (l : List Char) : List Char := eqSpacesF l.length l

/-- `remove_enclosed_space`: drop spaces while the single-quote state is
open. -/
def remove_enclosed_space_go (state : Bool) : List Char → List Char
  | [] => []
  | c :: rest =>
    if c = '\'' then c :: remove_enclosed_space_go (!state) rest
    else if state && c = ' ' then remove_enclosed_space_go state rest
    else c :: remove_enclosed_space_go state rest

/-- `remove_enclosed_space` on a string. -/
def remove_enclosed_space (s : String) : String :=
  ⟨remove_enclosed_space_go false s.data⟩

/-- Regex `^.include.*`: any first character followed by `include`. -/
def inclPat (line : String) : Bool :=
  match line.data with
  | _ :: 'i' :: 'n' :: 'c' :: 'l' :: 'u' :: 'd' :: 'e' :: _ => true
  | _ => false

/-- `clean_netlist` on a line list: lstrip, drop blank/comment/empty-`+`
lines, strip `$`-comments, merge continuations, unify whitespace, remove
quoted spaces, tighten `=`, and lowercase all but `^.include` lines. -/
def cleanLines (netlist : List String) : Option (List String) := do
  let nl := netlist.map pyLstrip
  let a0 := nl.filter (fun l => !dropPat l)
  let a := a0.map stripDollar
  let b ← mergeCont [] a
  let c := b.map (fun l => (⟨unifyWs l.data⟩ : String))
  let d := c.map remove_enclosed_space
  let e := d.map (fun l => (⟨eqSpaces l.data⟩ : String))
  some (e.map (fun l => if inclPat l then l else pyLower l))

/-- `clean_netlist` on a string netlist. -/
def clean_netlist (s : String) : Option String :=
  (cleanLines (pySplit '\n' s)).map (pyJoin '\n')

/-- The claim's expected effect of `replace_argument` on a token list: the
token whose key is `key` becomes `key=val`, all other tokens stay put. -/
def replacedArgs (args : List String) (key val : String) : List String :=
  args.map (fun t => if (splitEq1 t).1 = key then key ++ "=" ++ val else t)

/-! ## General helper lemmas -/

/-- Scan mirroring the parse loop's control-flow, returning `false` when a
line that is skipped into a control section would push or pop the hierarchy
stack (the only unrecorded hierarchy side effects). -/
def ctlScan : List String → Bool → Bool
  | [], _ => true
  | l :: rest, inside =>
    let line := pyStrip l
    if isSkip line then ctlScan rest inside
    else if isControlPat line || inside then
      !isSubcktPat line && !isEndsPat line && ctlScan rest (!isEndcPat line)
    else ctlScan rest inside

/-- The lines one element contributes to the serialized text. -/
def partLines (e : Element) : List String :=
  synthLine e :: (if e.inst = ".ends" then [""] else [])

/-- Keys recorded so far: each is `mkUid k l` with `k` below the bound and
`l` not starting with a digit. -/
def GoodKeys (d : List (String × Element)) (bound : Nat) : Prop :=
  ∀ p ∈ d, ∃ k l, k < bound ∧ p.1 = mkUid k l ∧
    (∀ c, (l : String).data.head? = some c → c.isDigit = false)

/-- The `.subckt` stage of one parse-loop iteration. -/
def subcktStep (line : String) (st : PState) : Except PErr PState :=
  if isSubcktPat line then
    match (pySplit ' ' line).get? 1 with
    | none => .error .listIndex
    | some name => .ok { st with hierarchy := st.hierarchy ++ [name] }
  else .ok st

/-- The control-section / element-record stage of one parse-loop iteration. -/
def ctlOrElemStep (i : Nat) (line : String) (st : PState) : Except PErr PState :=
  if isControlPat line || st.insideCtl then
    .ok { st with insideCtl := !isEndcPat line }
  else do
    let e ← lineElement line (pyJoin '/' st.hierarchy)
    let uid := mkUid i line
    if (st.elements.find? (fun p => p.1 = uid)).isSome then
      .error .dupUid
    else
      .ok { st with elements := st.elements ++ [(uid, e)] }

/-- The `.ends` stage of one parse-loop iteration. -/
def endsStep (line : String) (st : PState) : Except PErr PState :=
  if isEndsPat line then
    match st.hierarchy with
    | [] => .error .popEmpty
    | _ => .ok { st with hierarchy := st.hierarchy.dropLast }
  else
    .ok st

/-- `Except` bind on a success. -/
theorem ebind_ok (a : A) (f : A → Except E B) :
    (Except.ok a : Except E A) >>= f = f a := rfl

/-- `Except` bind on an error. -/
theorem ebind_err (e : E) (f : A → Except E B) :
    (Except.error e : Except E A) >>= f = .error e := rfl

/-- `Option` bind on a success. -/
theorem obind_some (a : A) (f : A → Option B) : (some a >>= f) = f a := rfl

/-- The head of a non-empty `dropWhile` result fails the predicate. -/
theorem head_dropWhile (p : α → Bool) (l : List α) (c : α) (rest : List α)
    (h : l.dropWhile p = c :: rest) : p c = false := by
  induction l with
  | nil => simp [List.dropWhile] at h
  | cons a l ih =>
    rw [List.dropWhile] at h
    cases hp : p a with
    | true => rw [hp] at h; exact ih h
    | false =>
      rw [hp] at h
      injection h with h1 h2
      subst h1
      exact hp

/-- Inserting a fresh key into a dict appends it. -/
theorem dictInsert_of_fresh (d : List (String × α)) (k : String) (v : α)
    (h : ∀ p ∈ d, p.1 ≠ k) : dictInsert d k v = d ++ [(k, v)] := by
  induction d with
  | nil => rfl
  | cons p d ih =>
    simp only [dictInsert]
    rw [if_neg (h p (by simp)), ih (fun q hq => h q (by simp [hq]))]
    rfl

/-- A present key's first binding is what `dictGet` finds (unique under
`Nodup` keys). -/
theorem dictGet_of_mem (d : List (String × α)) (k : String) (v : α)
    (hmem : (k, v) ∈ d) (hnod : (d.map Prod.fst).Nodup) :
    dictGet d k = some v := by
  induction d with
  | nil => simp at hmem
  | cons p d ih =>
    simp only [List.map_cons, List.nodup_cons] at hnod
    by_cases hp : p.1 = k
    · cases List.mem_cons.1 hmem with
      | inl h => subst h; simp [dictGet, List.find?]
      | inr h =>
        exact absurd (hp ▸ List.mem_map_of_mem Prod.fst h) hnod.1
    · have hstep : dictGet (p :: d) k = dictGet d k := by
        simp [dictGet, List.find?_cons, hp]
      rw [hstep]
      apply ih
      · cases List.mem_cons.1 hmem with
        | inl h => exact absurd (by rw [← h]) hp
        | inr h => exact h
      · exact hnod.2

/-- Updating a present key (under `Nodup` keys) rewrites exactly that
binding in place. -/
theorem dictInsert_of_mem (d : List (String × α)) (k : String) (v v' : α)
    (hmem : (k, v') ∈ d) (hnod : (d.map Prod.fst).Nodup) :
    dictInsert d k v = d.map (fun p => if p.1 = k then (k, v) else p) := by
  induction d with
  | nil => simp at hmem
  | cons p d ih =>
    simp only [List.map_cons, List.nodup_cons] at hnod
    simp only [dictInsert, List.map_cons]
    by_cases hp : p.1 = k
    · rw [if_pos hp, if_pos hp]
      congr 1
      have hk : ∀ q ∈ d, q.1 ≠ k := by
        intro q hq hcontra
        exact hnod.1 (hp ▸ hcontra ▸ List.mem_map_of_mem Prod.fst hq)
      symm
      calc d.map (fun p => if p.1 = k then (k, v) else p) = d.map id := by
            apply List.map_congr_left
            intro q hq
            simp [if_neg (hk q hq)]
      _ = d := List.map_id d
    · rw [if_neg hp, if_neg hp]
      congr 1
      apply ih
      · cases List.mem_cons.1 hmem with
        | inl h => exact absurd (by rw [← h]) hp
        | inr h => exact h
      · exact hnod.2

/-- `unpack_args`'s fold over fresh, pairwise distinct keys appends the
tokens' key/value pairs in order. -/
theorem unpack_go (args : List String) (d : List (String × Option String))
    (hfresh : ∀ t ∈ args, ∀ p ∈ d, p.1 ≠ (splitEq1 t).1)
    (hnod : (args.map (fun t => (splitEq1 t).1)).Nodup) :
    args.foldl (fun d t => dictInsert d (splitEq1 t).1 (splitEq1 t).2) d
      = d ++ args.map splitEq1 := by
  induction args generalizing d with
  | nil => simp
  | cons t rest ih =>
    simp only [List.foldl_cons, List.map_cons]
    rw [dictInsert_of_fresh _ _ _ (fun p hp => hfresh t (by simp) p hp)]
    rw [ih]
    · simp
    · intro t' ht' p hp
      rcases List.mem_append.1 hp with hmem | hmem
      · exact hfresh t' (by simp [ht']) p hmem
      · simp only [List.mem_singleton] at hmem
        subst hmem
        simp only [List.map_cons, List.nodup_cons] at hnod
        intro hcontra
        exact hnod.1 (hcontra ▸ List.mem_map_of_mem _ ht')
    · simp only [List.map_cons, List.nodup_cons] at hnod
      exact hnod.2

/-- With pairwise distinct keys, `unpack_args` is just tokenwise
`split("=", 1)`. -/
theorem unpack_args_eq_map (args : List String)
    (h : (args.map (fun t => (splitEq1 t).1)).Nodup) :
    unpack_args args = args.map splitEq1 := by
  simpa using unpack_go args [] (by simp) h

/-- Repacking a token's key/value pair restores the token, provided the
token's value part is not the empty string (Python's falsy `""` would drop
the `=`). -/
theorem repackTok_splitEq1 (t : String) (h : (splitEq1 t).2 ≠ some "") :
    (if pyTruthy (splitEq1 t).2 then (splitEq1 t).1 ++ "=" ++ ((splitEq1 t).2.getD "")
     else (splitEq1 t).1) = t := by
  unfold splitEq1 at h ⊢
  cases hdw : t.data.dropWhile (fun c => c ≠ '=') with
  | nil => simp [pyTruthy]
  | cons c rest =>
    have hc : c = '=' := by
      have := head_dropWhile _ _ _ _ hdw
      simpa using this
    rw [hdw] at h
    simp only [pyTruthy] at h ⊢
    have hrest : ¬((String.mk rest) = "") := by
      intro hcontra
      exact h (by rw [hcontra])
    rw [if_pos (by simpa using hrest)]
    apply String.ext
    simp only [String.data_append]
    have hsplit := List.takeWhile_append_dropWhile (p := fun c => decide (c ≠ '=')) (l := t.data)
    rw [hdw, hc] at hsplit
    simpa using hsplit

/-! ## C5 — argument codec round trip -/

/-- **C5** (counterexample).  Duplicate keys collapse in the dict, so the
round trip loses the first `x=1` token: the token list `["x=1", "x=2"]` has
no `=` inside any value, yet `repack(unpack(args)) = ["x=2"] ≠ args`. -/
theorem claim_c5_counterexample :
    repack_args (unpack_args ["x=1", "x=2"]) ≠ ["x=1", "x=2"] := by decide

/-- **C5** (amended).  `repack(unpack(args)) = args` for token lists whose
keys are pairwise distinct and in which no `key=` token carries an empty
value (Python treats the falsy `""` like a missing value and emits the bare
key). -/
theorem claim_c5_roundtrip (args : List String)
    (hnod : (args.map (fun t => (splitEq1 t).1)).Nodup)
    (hval : ∀ t ∈ args, (splitEq1 t).2 ≠ some "") :
    repack_args (unpack_args args) = args := by
  rw [unpack_args_eq_map args hnod]
  unfold repack_args
  rw [List.map_map]
  have hpt : ∀ t ∈ args,
      ((fun p : String × Option String =>
          if pyTruthy p.2 then p.1 ++ "=" ++ (p.2.getD "") else p.1) ∘ splitEq1) t = t :=
    fun t ht => repackTok_splitEq1 t (hval t ht)
  calc args.map _ = args.map id := List.map_congr_left hpt
  _ = args := List.map_id args

/-- Witness for C5 (amended) on a concrete well-formed argument list. -/
theorem claim_c5_roundtrip_witness :
    repack_args (unpack_args ["w=0.5u", "l=0.15u", "m"]) = ["w=0.5u", "l=0.15u", "m"] :=
  claim_c5_roundtrip ["w=0.5u", "l=0.15u", "m"] (by decide) (by decide)

/-! ## C7 — `replace_argument` -/

/-- **C7** (counterexample).  On an element whose args contain the bare key
`w` (present *without* an attached value), `replace_argument` does not
replace `w`'s value: the rename loop turns the token `w` into `5`, deleting
the key itself. -/
theorem claim_c7_counterexample :
    replace_argument "u" [("u", ⟨"r1", "resistor", [], "root", ["w"]⟩)] "w" "5"
      = some [("u", ⟨"r1", "resistor", [], "root", ["5"]⟩)]
    ∧ ["5"] ≠ replacedArgs ["w"] "w" "5" := by
  exact ⟨rfl, by decide⟩

/-- **C7** (amended).  When the element's args contain `key` with a
*non-empty attached value* (and keys are distinct, no token has an empty
`=`-value, and the new value is non-empty), `replace_argument` replaces
exactly that token's value with `val`, leaving every other token, and the
token order, unchanged. -/
theorem claim_c7_replace (cir : List (String × Element)) (uid : String) (e : Element)
    (key val s : String)
    (hget : dictGet cir uid = some e)
    (hmem : (key, some s) ∈ unpack_args e.args)
    (hs : s ≠ "") (hval : val ≠ "")
    (hnod : (e.args.map (fun t => (splitEq1 t).1)).Nodup)
    (hnoempty : ∀ t ∈ e.args, (splitEq1 t).2 ≠ some "") :
    replace_argument uid cir key val
      = some (dictInsert cir uid { e with args := replacedArgs e.args key val }) := by
  have hkeys : ((unpack_args e.args).map Prod.fst).Nodup := by
    rw [unpack_args_eq_map e.args hnod, List.map_map]
    exact hnod
  have hget2 : dictGet (unpack_args e.args) key = some (some s) :=
    dictGet_of_mem _ _ _ hmem hkeys
  simp only [replace_argument, hget, obind_some, hget2, pyTruthy, hs,
    Bool.not_eq_true', decide_eq_false_iff_not, not_false_eq_true, if_true]
  congr 2
  rw [dictInsert_of_mem _ _ _ (some s) hmem hkeys]
  rw [unpack_args_eq_map e.args hnod]
  unfold repack_args replacedArgs
  rw [List.map_map, List.map_map]
  congr 1
  apply List.map_congr_left
  intro t ht
  simp only [Function.comp]
  by_cases hk : (splitEq1 t).1 = key
  · rw [if_pos hk, if_pos hk]
    simp only [pyTruthy]
    rw [if_pos (by simpa using hval)]
    simp
  · rw [if_neg hk, if_neg hk]
    exact repackTok_splitEq1 t (hnoempty t ht)

/-- Witness for C7 (amended) on a concrete circuit. -/
theorem claim_c7_replace_witness :
    replace_argument "u" [("u", ⟨"m1", "mosfet", [], "root", ["w=1u", "l=2u"]⟩)] "w" "5u"
      = some [("u", ⟨"m1", "mosfet", [], "root",
          replacedArgs ["w=1u", "l=2u"] "w" "5u"⟩)] := by
  have h := claim_c7_replace [("u", ⟨"m1", "mosfet", [], "root", ["w=1u", "l=2u"]⟩)]
    "u" ⟨"m1", "mosfet", [], "root", ["w=1u", "l=2u"]⟩ "w" "5u" "1u"
    rfl (by decide) (by decide) (by decide) (by decide) (by decide)
  exact h

/-! ## C9 — normalizer lowercasing -/

/-- `UInt32` order reflects to `Nat`. -/
theorem uint32_le_iff (a b : UInt32) : a ≤ b ↔ a.toNat ≤ b.toNat := by
  rw [UInt32.le_def, BitVec.le_def]
  rfl

/-- Lowercasing a character never yields an uppercase ASCII letter. -/
theorem isUpper_toLower (c : Char) : (Char.toLower c).isUpper = false := by
  rw [Char.toLower]
  by_cases h : c.toNat ≥ 65 ∧ c.toNat ≤ 90
  · rw [if_pos h]
    have hval : (Char.ofNat (c.toNat + 32)).val.toNat = c.toNat + 32 := by
      show (Char.ofNat (c.toNat + 32)).toNat = c.toNat + 32
      rw [Char.ofNat, dif_pos (Or.inl (by omega))]
      rfl
    rw [Char.isUpper]
    simp only [ge_iff_le, Bool.and_eq_false_iff, decide_eq_false_iff_not]
    right
    rw [uint32_le_iff, hval, show (90 : UInt32).toNat = 90 from rfl]
    omega
  · rw [if_neg h]
    rw [Char.isUpper]
    simp only [ge_iff_le, Bool.and_eq_false_iff, decide_eq_false_iff_not]
    by_cases h1 : (65 : UInt32) ≤ c.val
    · right
      rw [uint32_le_iff, show (90 : UInt32).toNat = 90 from rfl]
      rw [uint32_le_iff, show (65 : UInt32).toNat = 65 from rfl] at h1
      intro h2
      exact h ⟨h1, h2⟩
    · left
      exact h1

/-- **C9** (counterexample).  The normalizer's regex is `^.include` with an
unescaped dot: the line `Xinclude ABC` does not begin with `.include`, yet
it passes through the case-preserving branch and keeps its uppercase
letters. -/
theorem claim_c9_counterexample :
    cleanLines ["Xinclude ABC"] = some ["Xinclude ABC"]
    ∧ ("Xinclude ABC".data.take 8 ≠ ".include".data)
    ∧ ("Xinclude ABC".data.any Char.isUpper = true) :=
  ⟨rfl, by decide, rfl⟩

/-- **C9** (amended).  In the normalizer output, exactly the lines matching
`^.include` (any first character followed by `include`) keep their original
case; every other line is fully lowercased — in particular no such line
retains an uppercase character. -/
theorem claim_c9_lowercase (ls out : List String) (h : cleanLines ls = some out) :
    ∀ l ∈ out, inclPat l = false → ∀ c ∈ l.data, c.isUpper = false := by
  unfold cleanLines at h
  dsimp only [] at h
  cases hmc : mergeCont []
      (((ls.map pyLstrip).filter (fun l => !dropPat l)).map stripDollar) with
  | none => rw [hmc] at h; simp at h
  | some b =>
    rw [hmc] at h
    simp only [obind_some, Option.some.injEq] at h
    subst h
    intro l hl hinc c hc
    rw [List.mem_map] at hl
    obtain ⟨pre, hpre, hval⟩ := hl
    by_cases hip : inclPat pre = true
    · rw [if_pos hip] at hval
      subst hval
      rw [hip] at hinc
      cases hinc
    · rw [if_neg hip] at hval
      subst hval
      simp only [pyLower, List.mem_map] at hc
      obtain ⟨c', _, hc'⟩ := hc
      rw [← hc']
      exact isUpper_toLower c'

/-- Witness for C9 (amended): the normalized form of `R1 A B` keeps no
uppercase character — in particular its character `a` is not uppercase. -/
theorem claim_c9_lowercase_witness :
    cleanLines ["R1 A B"] = some ["r1 a b"] ∧ ('a' : Char).isUpper = false :=
  ⟨rfl, claim_c9_lowercase ["R1 A B"] ["r1 a b"] rfl "r1 a b" (by simp) rfl
    'a' (by decide)⟩

/-! ## C2 — `match` semantics -/

/-- `re.match` succeeds exactly when some prefix of the string lies in the
pattern's language. -/
theorem reMatchB_iff (p : RegularExpression Char) (s : String) :
    reMatchB p s = true ↔ ∃ x y, s.data = x ++ y ∧ x ∈ p.matches' := by
  unfold reMatchB
  rw [List.any_eq_true]
  constructor
  · rintro ⟨k, hk, hr⟩
    exact ⟨s.data.take k, s.data.drop k, (List.take_append_drop k s.data).symm,
      (RegularExpression.rmatch_iff_matches' _ _).1 hr⟩
  · rintro ⟨x, y, hxy, hx⟩
    refine ⟨x.length, ?_, ?_⟩
    · rw [List.mem_range]
      have hlen : s.data.length = x.length + y.length := by rw [hxy]; simp
      omega
    · rw [hxy, List.take_left]
      exact (RegularExpression.rmatch_iff_matches' _ _).2 hx

/-- **C2** (counterexample).  `match` uses `re.match`, which anchors at the
start only: on a model holding instance `r1`, `match("instance", "r")`
returns that identifier although `r` does not fully match `r1` — full-match
semantics, as the claim states them, do not hold. -/
theorem claim_c2_counterexample :
    cirMatch [("u", ⟨"r1", "resistor", [], "root", []⟩)] .inst (RegularExpression.char 'r') = ["u"]
    ∧ reFullmatchB (RegularExpression.char 'r') "r1" = false := ⟨rfl, rfl⟩

/-- **C2** (amended).  `match(field, pattern)` returns exactly the
identifiers of elements whose string-valued field has a *prefix* in the
pattern's language (`re.match` semantics).  The `ports` and `args` fields
are not strings: passing them to `re.match` is a `TypeError` in the source,
so they are not match targets at all (in particular no joined port-value
string is ever built). -/
theorem claim_c2_match (circuit : List (String × Element)) (key : MField)
    (p : RegularExpression Char) (uid : String) :
    uid ∈ cirMatch circuit key p ↔
      ∃ e, (uid, e) ∈ circuit ∧
        ∃ x y, (e.getField key).data = x ++ y ∧ x ∈ p.matches' := by
  unfold cirMatch
  rw [List.mem_map]
  constructor
  · rintro ⟨pr, hmem, rfl⟩
    rw [List.mem_filter] at hmem
    exact ⟨pr.2, by simpa using hmem.1, (reMatchB_iff _ _).1 hmem.2⟩
  · rintro ⟨e, hmem, hx⟩
    exact ⟨(uid, e), List.mem_filter.2 ⟨hmem, (reMatchB_iff _ _).2 hx⟩, rfl⟩

/-! ## C8 — parse failure reporting -/

/-- The parse loop is compositional over concatenation of line lists. -/
theorem goParse_append (xs ys : List String) (i : Nat) (st : PState) :
    goParse i (xs ++ ys) st
      = (goParse i xs st).bind (fun st2 => goParse (i + xs.length) ys st2) := by
  induction xs generalizing i st with
  | nil => simp [goParse, Except.bind]
  | cons l rest ih =>
    simp only [List.cons_append, goParse]
    cases parseStep i l st with
    | error e => simp [Except.bind, ebind_err]
    | ok st2 =>
      simp only [ebind_ok, Except.bind, List.append_eq]
      rw [ih]
      cases goParse (i + 1) rest st2 with
      | error e => rfl
      | ok v =>
        show goParse (i + 1 + rest.length) ys v = goParse (i + (l :: rest).length) ys v
        rw [show i + 1 + rest.length = i + (l :: rest).length from by simp; omega]

/-- **C8** (counterexample).  A line with an unclassifiable prefix aborts
the parse with the constant message `Linetype not understood by parser`:
the reported error contains neither the offending line's raw text (`&a b`)
nor its index (`0`). -/
theorem claim_c8_counterexample :
    parse "&a b" = .error .unknownElement
    ∧ PErr.unknownElement.msg = "Linetype not understood by parser"
    ∧ ¬ List.IsInfix "&a b".data (PErr.unknownElement.msg).data
    ∧ ¬ List.IsInfix "0".data (PErr.unknownElement.msg).data :=
  ⟨rfl, rfl, by decide, by decide⟩

/-- **C8** (amended).  Parse failures are fail-fast — an unclassifiable line
appended to any successfully parsed netlist (whose parse does not end inside
a control section) makes the whole parse abort with the
`UnknownElementType` error, and no model is produced — but the reported
error is a constant message that identifies neither the line index nor the
raw text. -/
theorem claim_c8_failfast (ls : List String) (st1 : PState)
    (h : goParse 0 ls initPState = .ok st1) (hctl : st1.insideCtl = false) :
    parseLines (ls ++ ["&a b"]) = .error .unknownElement := by
  have hident : identify_linetype "&a b" = .error .unknownElement := rfl
  have hstep : ∀ i : Nat, parseStep i "&a b" st1 = .error .unknownElement := by
    intro i
    unfold parseStep
    rw [show pyStrip "&a b" = "&a b" from rfl]
    dsimp only []
    rw [show isSkip "&a b" = false from rfl]
    simp [show isSubcktPat "&a b" = false from rfl,
      show isControlPat "&a b" = false from rfl, hctl, hident, ebind_ok, ebind_err,
      Except.bind]
    rw [show lineElement "&a b" (pyJoin '/' st1.hierarchy) = .error .unknownElement from rfl]
    rfl
  unfold parseLines
  rw [goParse_append, h]
  show (goParse (0 + ls.length) ["&a b"] st1).map PState.elements = _
  unfold goParse
  rw [hstep (0 + ls.length)]
  rfl

/-- Witness for C8 (amended): a valid line followed by the unclassifiable
line `&a b`. -/
theorem claim_c8_failfast_witness :
    parseLines ["r1 a b 1", "&a b"] = .error .unknownElement :=
  claim_c8_failfast ["r1 a b 1"]
    ⟨[("0r1 a b 1", ⟨"r1", "resistor", [("n+", "a"), ("n-", "b")], "root", ["1"]⟩)],
      false, ["root"]⟩ rfl rfl

/-! ## C6 — hierarchy tracking -/

/-- **C6.**  Parsing tracks hierarchy: inside nested subcircuits `a` then `b`
an element's location is `root/a/b`, and after the matching `.ends` lines a
sibling reverts to the enclosing path; the spec's example input parses to two
resistor elements, the first at `root` with ports `n+ ↦ in`, `n- ↦ out` and
args `["1k"]`, the second at `root/a` with ports `n+ ↦ n1`, `n- ↦ n2` and
args `["2k"]`. -/
theorem claim_c6_hierarchy :
    ((parse "rx p q 5\n.subckt a n1 n2\n.subckt b m1 m2\nr1 x y 1k\n.ends\n.ends\nr2 x y 2k").map
        (fun m => (m.map Prod.snd).map (fun e => (e.inst, e.location)))
      = .ok [("rx", "root"), (".subckt", "root/a"), (".subckt", "root/a/b"),
             ("r1", "root/a/b"), (".ends", "root/a/b"), (".ends", "root/a"), ("r2", "root")])
    ∧ ((parse "r1 in out 1k\n.subckt a n1 n2\nr2 n1 n2 2k\n.ends\n").map
        (fun m => (m.map Prod.snd).filter (fun e => e.type = "resistor"))
      = .ok [⟨"r1", "resistor", [("n+", "in"), ("n-", "out")], "root", ["1k"]⟩,
             ⟨"r2", "resistor", [("n+", "n1"), ("n-", "n2")], "root/a", ["2k"]⟩]) :=
  ⟨rfl, rfl⟩

/-! ## C10 — single-character lines crash the classifier -/

/-- **C10.**  A non-skipped one-character line (any single character that is
neither whitespace — which `strip` would blank out — nor `*`) makes
`identify_linetype` read `line[1]` out of bounds, so `parse` (and therefore
`append`) fails with the `IndexError`, not with the defined
`UnknownElementType` failure and not with an element. -/
theorem claim_c10_single_char (c : Char) (hws : isPyWs c = false) (hstar : c ≠ '*') :
    parse (String.mk [c]) = .error .stringIndex ∧
    append [] (String.mk [c]) = .error .stringIndex := by
  have hn : c ≠ '\n' := by
    intro h; subst h; simp [isPyWs] at hws
  have hsplit : pySplit '\n' (String.mk [c]) = [String.mk [c]] := by
    simp [pySplit, List.splitOn, List.splitOnP, List.splitOnP.go, hn]
  have hstrip : pyStrip (String.mk [c]) = String.mk [c] := by
    simp [pyStrip, List.dropWhile, hws]
  have hskip : isSkip (String.mk [c]) = false := by
    simp only [isSkip, List.dropWhile, hws, Bool.or_eq_false_iff]
    refine ⟨⟨?_, ?_⟩, ?_⟩
    · simp [String.ext_iff]
    · simp [String.ext_iff]
    · split
      · rename_i h
        exact absurd (by injection h) hstar
      · rfl
  have hident : identify_linetype (String.mk [c]) = .error .stringIndex := by
    simp [identify_linetype, pyLstrip, List.dropWhile, hws]
  have hp : parse (String.mk [c]) = .error .stringIndex := by
    simp [parse, hsplit, parseLines, goParse, parseStep, hstrip, hskip, hident,
      isSubcktPat, isControlPat, isEndsPat, lineElement, Except.map, ebind_ok,
      ebind_err, initPState]
  exact ⟨hp, by simp [append, hp, ebind_err]⟩

/-- Witness for C10 at the concrete line `"r"`. -/
theorem claim_c10_single_char_witness :
    parse "r" = .error .stringIndex ∧ append [] "r" = .error .stringIndex :=
  claim_c10_single_char 'r' rfl (by decide)

/-! ## C4 — `append` can overwrite an existing entry -/

/-- **C4** (failing-input evaluation).  `append` discards the fresh uid its
`while` loop computed and re-uses the uid that `self.parse(line)` minted for
line index `0`; appending a line whose text equals the model's first line
therefore overwrites that entry instead of adding a new one — the model still
has one element, not two. -/
theorem claim_c4_append_overwrites :
    ((parse "r1 a b 1k").bind (fun c => append c "r1 a b 1k")).map List.length
      = .ok 1 := rfl

/-! ## C3 — port arity -/

/-- **C3** (counterexample).  The line `v1 a` parses without error to a
vsource element with a single port, although the type table declares arity 2
for category `V`: `zip` truncation makes the port count fall short of the
declared arity on short lines. -/
theorem claim_c3_counterexample :
    ((parse "v1 a").map (fun m => m.map (fun p => p.2.ports.length)) = .ok [1])
    ∧ (emapGet "V").2.length = 2 :=
  ⟨rfl, rfl⟩

/-- **C3** (amended).  For every line accepted by the classifier the number
of ports equals the *minimum* of the declared arity and the number of tokens
available after the instance name, and the args are exactly the tokens after
the consumed ports (no leftover token is ever a port). -/
theorem claim_c3_amended (line loc : String) (e : Element)
    (h : lineElement line loc = .ok e) :
    ∃ ty, identify_linetype line = .ok ty ∧
      e.ports.length = min (emapGet ty).2.length ((pySplit ' ' line).length - 1) ∧
      e.args = (pySplit ' ' line).drop (e.ports.length + 1) := by
  unfold lineElement at h
  cases hid : identify_linetype line with
  | error err => rw [hid] at h; simp [ebind_err] at h
  | ok ty =>
    rw [hid] at h
    simp only [ebind_ok] at h
    refine ⟨ty, rfl, ?_⟩
    cases hsp : pySplit ' ' line with
    | nil => rw [hsp] at h; simp at h
    | cons t rest =>
      rw [hsp] at h
      simp only [Except.ok.injEq] at h
      subst h
      constructor
      · simp only [resolve_ports, hsp, List.length_zip, List.length_take,
          List.length_drop, List.length_cons]
        omega
      · rfl

/-- Witness for C3 (amended) at the concrete line `v1 a`. -/
theorem claim_c3_amended_witness :
    ∃ ty, identify_linetype "v1 a" = .ok ty ∧
      (min (emapGet ty).2.length ((pySplit ' ' "v1 a").length - 1) = 1)
      ∧ True := by
  obtain ⟨ty, h1, h2, _⟩ :=
    claim_c3_amended "v1 a" "root"
      ⟨"v1", "vsource", [("n+", "a")], "root", []⟩ rfl
  exact ⟨ty, h1, by rw [← h2]; rfl, trivial⟩

/-! ## C1 — parse/serialize round trip

The round trip `parse ∘ synthesize ∘ parse = parse` fails when a line
*inside a control section* matches the hierarchy-push pattern `^.subckt*`
or the pop pattern `^.ends.*`: such a line mutates the hierarchy stack yet
is not recorded as an element, so its side effect is absent from the
serialized text.  The amended theorem proves the round trip for every
netlist without such lines. -/

/-! ### List and string infrastructure for the round-trip proof -/

/-- Dropping a prefix does not change a non-empty remainder's last element. -/
theorem getLast?_dropWhile (p : α → Bool) (l : List α)
    (h : l.dropWhile p ≠ []) : (l.dropWhile p).getLast? = l.getLast? := by
  induction l with
  | nil => simp at h
  | cons a t ih =>
    rw [List.dropWhile_cons] at h ⊢
    by_cases hp : p a
    · rw [if_pos hp] at h ⊢
      rw [ih h]
      have htne : t ≠ [] := by
        intro hc
        rw [hc] at h
        simp at h
      cases t with
      | nil => simp at htne
      | cons b t' => rw [List.getLast?_cons_cons]
    · rw [if_neg hp] at h ⊢

/-- `dropWhile` is the identity when the head (if any) fails the predicate. -/
theorem dropWhile_eq_self_of_head (p : α → Bool) (l : List α)
    (h : ∀ c, l.head? = some c → p c = false) : l.dropWhile p = l := by
  cases l with
  | nil => rfl
  | cons a t =>
    rw [List.dropWhile_cons, if_neg]
    simp [h a rfl]

/-- Membership survives `dropWhile`. -/
theorem mem_dropWhile_imp (p : α → Bool) (l : List α) (c : α)
    (h : c ∈ l.dropWhile p) : c ∈ l := by
  induction l with
  | nil => simp [List.dropWhile] at h
  | cons a t ih =>
    rw [List.dropWhile_cons] at h
    by_cases hp : p a
    · rw [if_pos hp] at h
      exact List.mem_cons_of_mem a (ih h)
    · rw [if_neg hp] at h
      exact h

/-- A non-empty `drop` keeps the last element. -/
theorem getLast?_drop (l : List α) (k : Nat) (h : l.drop k ≠ []) :
    (l.drop k).getLast? = l.getLast? := by
  induction l generalizing k with
  | nil => simp at h
  | cons a t ih =>
    cases k with
    | zero => rfl
    | succ k' =>
      rw [List.drop_succ_cons] at h ⊢
      rw [ih k' h]
      have htne : t ≠ [] := by
        intro hc
        rw [hc] at h
        simp at h
      cases t with
      | nil => simp at htne
      | cons b t' => rw [List.getLast?_cons_cons]

/-- A stripped string starts with a non-whitespace character. -/
theorem pyStrip_head_not_ws (s : String) (c : Char) (rest : List Char)
    (h : (pyStrip s).data = c :: rest) : isPyWs c = false := by
  unfold pyStrip at h
  simp only [] at h
  have h2 : ((s.data.dropWhile isPyWs).reverse.dropWhile isPyWs).getLast? = some c := by
    rw [show ((s.data.dropWhile isPyWs).reverse.dropWhile isPyWs)
        = ((s.data.dropWhile isPyWs).reverse.dropWhile isPyWs).reverse.reverse from by simp]
    rw [List.getLast?_reverse, h]
    rfl
  have hne : (s.data.dropWhile isPyWs).reverse.dropWhile isPyWs ≠ [] := by
    intro hc
    rw [hc] at h2
    simp at h2
  rw [getLast?_dropWhile _ _ hne, List.getLast?_reverse] at h2
  cases hd : s.data.dropWhile isPyWs with
  | nil => rw [hd] at h2; simp at h2
  | cons d t =>
    rw [hd] at h2
    simp only [List.head?] at h2
    injection h2 with h3
    subst h3
    exact head_dropWhile _ _ _ _ hd

/-- A stripped string ends with a non-whitespace character. -/
theorem pyStrip_last_not_ws (s : String) (c : Char)
    (h : (pyStrip s).data.getLast? = some c) : isPyWs c = false := by
  unfold pyStrip at h
  simp only [List.getLast?_reverse] at h
  cases hd : (s.data.dropWhile isPyWs).reverse.dropWhile isPyWs with
  | nil => rw [hd] at h; simp at h
  | cons d t =>
    rw [hd] at h
    simp only [List.head?] at h
    injection h with h3
    subst h3
    exact head_dropWhile _ _ _ _ hd

/-- A string with no whitespace at either end is already stripped. -/
theorem pyStrip_eq_self (t : String)
    (h1 : ∀ c, t.data.head? = some c → isPyWs c = false)
    (h2 : ∀ c, t.data.getLast? = some c → isPyWs c = false) :
    pyStrip t = t := by
  unfold pyStrip
  rw [dropWhile_eq_self_of_head _ _ h1]
  rw [dropWhile_eq_self_of_head]
  · show (⟨t.data.reverse.reverse⟩ : String) = t
    rw [List.reverse_reverse]
  · intro c hc
    rw [List.head?_reverse] at hc
    exact h2 c hc

/-- `strip` is idempotent. -/
theorem pyStrip_idem (s : String) : pyStrip (pyStrip s) = pyStrip s := by
  apply pyStrip_eq_self
  · intro c hc
    cases hh : (pyStrip s).data with
    | nil => rw [hh] at hc; simp at hc
    | cons d t =>
      rw [hh] at hc
      simp only [List.head?_cons, Option.some.injEq] at hc
      subst hc
      exact pyStrip_head_not_ws s d t hh
  · intro c hc
    exact pyStrip_last_not_ws s c hc

/-- Stripping removes exactly a trailing space appended to a stripped
string. -/
theorem pyStrip_append_space (s : String) (h : pyStrip s = s) :
    pyStrip (s ++ " ") = s := by
  cases hd : s.data with
  | nil =>
    have hs : s = "" := by
      apply String.ext
      rw [hd]
    rw [hs]
    rfl
  | cons c0 t =>
    unfold pyStrip
    have hdata : (s ++ " ").data = s.data ++ [' '] := by
      rw [String.data_append]
    rw [hdata]
    have hhead : ∀ d, (s.data ++ [' ']).head? = some d → isPyWs d = false := by
      intro d hc'
      rw [hd] at hc'
      simp only [List.cons_append, List.head?_cons, Option.some.injEq] at hc'
      rw [← hc']
      apply pyStrip_head_not_ws s c0 t
      rw [h, hd]
    rw [dropWhile_eq_self_of_head _ _ hhead]
    rw [List.reverse_append]
    simp only [List.reverse_cons, List.reverse_nil, List.nil_append, List.singleton_append]
    rw [List.dropWhile_cons]
    rw [if_pos (by simp [isPyWs])]
    rw [dropWhile_eq_self_of_head]
    · show (⟨s.data.reverse.reverse⟩ : String) = s
      rw [List.reverse_reverse]
    · intro d hc'
      rw [List.head?_reverse] at hc'
      apply pyStrip_last_not_ws s
      rw [h]
      exact hc'

/-- Characters of a stripped string come from the original. -/
theorem mem_pyStrip (s : String) (c : Char) (h : c ∈ (pyStrip s).data) :
    c ∈ s.data := by
  unfold pyStrip at h
  simp only [List.mem_reverse] at h
  have h1 := mem_dropWhile_imp _ _ _ h
  rw [List.mem_reverse] at h1
  exact mem_dropWhile_imp _ _ _ h1

theorem pyJoin_nil (sep : Char) : pyJoin sep [] = "" := rfl

theorem pyJoin_single (sep : Char) (x : String) : pyJoin sep [x] = x := by
  apply String.ext
  show List.intercalate [sep] [x.data] = x.data
  simp [List.intercalate, List.intersperse]

theorem pyJoin_cons (sep : Char) (x : String) (xs : List String) (h : xs ≠ []) :
    pyJoin sep (x :: xs) = x ++ (⟨[sep]⟩ : String) ++ pyJoin sep xs := by
  cases xs with
  | nil => simp at h
  | cons y ys =>
    apply String.ext
    show List.intercalate [sep] (x.data :: y.data :: ys.map String.data)
      = ((x ++ (⟨[sep]⟩ : String)) ++ pyJoin sep (y :: ys)).data
    simp only [String.data_append]
    show _ = x.data ++ [sep] ++ List.intercalate [sep] (y.data :: ys.map String.data)
    rw [List.intercalate, List.intercalate, List.intersperse_cons_cons]
    simp [List.append_assoc]

theorem pyJoin_append (sep : Char) (xs ys : List String) (hx : xs ≠ []) (hy : ys ≠ []) :
    pyJoin sep (xs ++ ys) = pyJoin sep xs ++ (⟨[sep]⟩ : String) ++ pyJoin sep ys := by
  induction xs with
  | nil => simp at hx
  | cons x xs' ih =>
    cases xs' with
    | nil =>
      simp only [List.singleton_append]
      rw [pyJoin_cons sep x ys hy, pyJoin_single]
    | cons z zs =>
      have hne : (z :: zs : List String) ≠ [] := by simp
      have happ : (z :: zs) ++ ys ≠ [] := by simp
      rw [List.cons_append, pyJoin_cons sep x ((z :: zs) ++ ys) happ,
        pyJoin_cons sep x (z :: zs) hne, ih hne]
      apply String.ext
      simp [String.data_append, List.append_assoc]

theorem pyJoin_eq_empty (sep : Char) (xs : List String) (h : pyJoin sep xs = "") :
    xs = [] ∨ xs = [""] := by
  cases xs with
  | nil => exact Or.inl rfl
  | cons x ys =>
    cases ys with
    | nil =>
      rw [pyJoin_single] at h
      exact Or.inr (by rw [h])
    | cons y zs =>
      exfalso
      rw [pyJoin_cons sep x (y :: zs) (by simp)] at h
      have := congrArg String.data h
      simp [String.data_append] at this

theorem pyJoin_pySplit (sep : Char) (s : String) : pyJoin sep (pySplit sep s) = s := by
  apply String.ext
  show List.intercalate [sep] (((s.data.splitOn sep).map String.mk).map String.data) = s.data
  rw [List.map_map]
  rw [show (String.data ∘ String.mk) = id from rfl]
  rw [List.map_id]
  exact List.intercalate_splitOn s.data sep

theorem pySplit_pyJoin (sep : Char) (xs : List String) (hne : xs ≠ [])
    (hno : ∀ x ∈ xs, ¬ sep ∈ x.data) : pySplit sep (pyJoin sep xs) = xs := by
  unfold pySplit pyJoin
  show ((List.intercalate [sep] (xs.map String.data)).splitOn sep).map String.mk = xs
  have h1 : ∀ l ∈ xs.map String.data, sep ∉ l := by
    intro l hl
    rw [List.mem_map] at hl
    obtain ⟨x, hx, rfl⟩ := hl
    exact hno x hx
  have h2 : xs.map String.data ≠ [] := by
    intro hc
    rw [List.map_eq_nil_iff] at hc
    exact hne hc
  rw [List.splitOn_intercalate (xs.map String.data) sep h1 h2]
  rw [List.map_map]
  rw [show (String.mk ∘ String.data) = id from by funext s; rfl]
  exact List.map_id xs

theorem splitOnP_forall (p : α → Bool) (l : List α) :
    ∀ g ∈ l.splitOnP p, ∀ c ∈ g, p c = false ∧ c ∈ l := by
  induction l with
  | nil =>
    intro g hg c hc
    simp [List.splitOnP, List.splitOnP.go] at hg
    subst hg
    simp at hc
  | cons a t ih =>
    intro g hg c hc
    rw [List.splitOnP_cons] at hg
    by_cases h : p a
    · rw [if_pos h] at hg
      cases List.mem_cons.1 hg with
      | inl hh => subst hh; simp at hc
      | inr hh =>
        obtain ⟨h1, h2⟩ := ih g hh c hc
        exact ⟨h1, List.mem_cons_of_mem _ h2⟩
    · rw [if_neg h] at hg
      cases hs : t.splitOnP p with
      | nil => exact absurd hs (List.splitOnP_ne_nil _ t)
      | cons g0 gs =>
        rw [hs] at hg
        simp only [List.modifyHead] at hg
        cases List.mem_cons.1 hg with
        | inl hh =>
          subst hh
          cases List.mem_cons.1 hc with
          | inl hh2 =>
            subst hh2
            exact ⟨by simpa using h, List.mem_cons_self _ _⟩
          | inr hh2 =>
            obtain ⟨h1, h2⟩ := ih g0 (by rw [hs]; exact List.mem_cons_self _ _) c hh2
            exact ⟨h1, List.mem_cons_of_mem _ h2⟩
        | inr hh =>
          obtain ⟨h1, h2⟩ := ih g (by rw [hs]; exact List.mem_cons_of_mem _ hh) c hc
          exact ⟨h1, List.mem_cons_of_mem _ h2⟩

theorem pySplit_no_sep (sep : Char) (s : String) :
    ∀ x ∈ pySplit sep s, ¬ sep ∈ x.data := by
  intro x hx hmem
  unfold pySplit at hx
  rw [List.mem_map] at hx
  obtain ⟨g, hg, rfl⟩ := hx
  have := (splitOnP_forall _ _ g hg sep hmem).1
  simp at this

theorem pySplit_mem_subset (sep : Char) (s : String) :
    ∀ x ∈ pySplit sep s, ∀ c ∈ x.data, c ∈ s.data := by
  intro x hx c hc
  unfold pySplit at hx
  rw [List.mem_map] at hx
  obtain ⟨g, hg, rfl⟩ := hx
  exact (splitOnP_forall _ _ g hg c hc).2

theorem getLast?_cons_ne (x : α) (xs : List α) (h : xs ≠ []) :
    (x :: xs).getLast? = xs.getLast? := by
  cases xs with
  | nil => simp at h
  | cons b t => rw [List.getLast?_cons_cons]

theorem splitOnP_getLast_ne_nil (p : α → Bool) (l : List α) (hne : l ≠ [])
    (hlast : ∀ c, l.getLast? = some c → p c = false) :
    ∀ g, (l.splitOnP p).getLast? = some g → g ≠ [] := by
  induction l with
  | nil => simp at hne
  | cons a t ih =>
    intro g hg
    rw [List.splitOnP_cons] at hg
    cases htne : t with
    | nil =>
      subst htne
      have hpa : p a = false := hlast a rfl
      rw [if_neg (by simp [hpa])] at hg
      simp [List.splitOnP, List.splitOnP.go, List.modifyHead] at hg
      subst hg
      simp
    | cons b t' =>
      have htne2 : t ≠ [] := by rw [htne]; simp
      have hlast2 : ∀ c, t.getLast? = some c → p c = false := by
        intro c hc
        apply hlast
        rw [getLast?_cons_ne a t htne2]
        exact hc
      by_cases hpa : p a
      · rw [if_pos hpa] at hg
        rw [getLast?_cons_ne _ _ (List.splitOnP_ne_nil _ t)] at hg
        exact ih htne2 hlast2 g hg
      · rw [if_neg hpa] at hg
        cases hs : t.splitOnP p with
        | nil => exact absurd hs (List.splitOnP_ne_nil _ t)
        | cons g0 gs =>
          rw [hs] at hg
          simp only [List.modifyHead] at hg
          cases hgs : gs with
          | nil =>
            subst hgs
            simp only [List.getLast?_singleton, Option.some.injEq] at hg
            subst hg
            simp
          | cons g1 gs' =>
            rw [hgs] at hg
            rw [List.getLast?_cons_cons] at hg
            apply ih htne2 hlast2 g
            rw [hs, hgs]
            rw [getLast?_cons_ne _ _ (by simp)]
            exact hg

theorem pySplit_getLast_ne_empty (sep : Char) (s : String) (hne : s.data ≠ [])
    (hlast : ∀ c, s.data.getLast? = some c → c ≠ sep) :
    ∀ x, (pySplit sep s).getLast? = some x → x ≠ "" := by
  intro x hx
  unfold pySplit at hx
  rw [List.getLast?_map] at hx
  cases hg : (s.data.splitOn sep).getLast? with
  | none => rw [hg] at hx; simp at hx
  | some g =>
    rw [hg] at hx
    simp only [Option.map_some', Option.some.injEq] at hx
    have hgne : g ≠ [] := by
      apply splitOnP_getLast_ne_nil _ s.data hne _ g hg
      intro c hc
      simp [hlast c hc]
    intro hc
    rw [← hx] at hc
    apply hgne
    have := congrArg String.data hc
    simpa using this

theorem zip_map_snd (as : List α) (bs : List β) :
    (as.zip bs).map Prod.snd = bs.take as.length := by
  induction as generalizing bs with
  | nil => simp
  | cons a as' ih =>
    cases bs with
    | nil => simp
    | cons b bs' => simp [List.zip_cons_cons, ih]

theorem identify_emap_spec (line ty : String) (h : identify_linetype line = .ok ty) :
    ∃ p ∈ emap, p.1 = ty ∧ emapGet ty = p.2 := by
  unfold identify_linetype at h
  dsimp only [] at h
  cases hd : (pyLstrip line).data with
  | nil => rw [hd] at h; cases h
  | cons c0 rest0 =>
    cases hrest : rest0 with
    | nil => rw [hd, hrest] at h; cases h
    | cons c1 rest =>
      rw [hd, hrest] at h
      dsimp only [] at h
      by_cases hf : (emap.find? (fun p => p.1 =
          (if charUpper c0 = 'X' && (charUpper c1 = 'M' || charUpper c1 = 'C') then
            String.mk [charUpper c0, charUpper c1] else String.mk [charUpper c0]))).isSome
      · rw [if_pos hf] at h
        injection h with hty
        obtain ⟨p, hp⟩ := Option.isSome_iff_exists.mp hf
        refine ⟨p, List.mem_of_find?_eq_some hp, ?_, ?_⟩
        · have := List.find?_some hp
          simp only [decide_eq_true_eq] at this
          rw [this, hty]
        · have hpred := List.find?_some hp
          simp only [decide_eq_true_eq] at hpred
          unfold emapGet
          rw [← hty]
          rw [hp]
          rfl
      · rw [if_neg hf] at h
        cases h

theorem emap_arity_not_one :
    ∀ p ∈ emap, p.2.2.length = 0 ∨ 2 ≤ p.2.2.length := by decide

theorem emap_head_not_digit :
    ∀ p ∈ emap, (p.1.data.head?.all (fun c => !c.isDigit)) = true := by decide

theorem toUpper_of_isDigit (c : Char) (h : c.isDigit = true) : c.toUpper = c := by
  rw [Char.toUpper]
  rw [if_neg]
  intro ⟨h1, h2⟩
  rw [Char.isDigit] at h
  simp only [Bool.and_eq_true, decide_eq_true_eq] at h
  obtain ⟨h3, h4⟩ := h
  rw [uint32_le_iff, show (57 : UInt32).toNat = 57 from rfl] at h4
  show False
  have : c.toNat ≥ 97 := h1
  have h5 : c.toNat ≤ 57 := h4
  omega

theorem digitChar_isDigit (d : Nat) (h : d < 10) : (digitChar d).isDigit = true := by
  interval_cases d <;> decide

theorem digitChar_toNat (d : Nat) (h : d < 10) : (digitChar d).toNat = 48 + d := by
  interval_cases d <;> decide

theorem natStrGo_append (fuel n : Nat) (acc : List Char) :
    natStrGo fuel n acc = natStrGo fuel n [] ++ acc := by
  induction fuel generalizing n acc with
  | zero => rfl
  | succ fuel ih =>
    rw [natStrGo, natStrGo]
    by_cases h : n < 10
    · rw [if_pos h, if_pos h]
      rfl
    · rw [if_neg h, if_neg h]
      rw [ih (n / 10) (digitChar (n % 10) :: acc), ih (n / 10) [digitChar (n % 10)]]
      simp

theorem natStr_ne_nil (n : Nat) : (natStr n).data ≠ [] := by
  unfold natStr
  show natStrGo (n + 1) n [] ≠ []
  rw [natStrGo]
  by_cases h : n < 10
  · rw [if_pos h]
    simp
  · rw [if_neg h]
    rw [natStrGo_append]
    simp

theorem natStr_all_digit (n : Nat) : ∀ c ∈ (natStr n).data, c.isDigit = true := by
  unfold natStr
  show ∀ c ∈ natStrGo (n + 1) n [], c.isDigit = true
  have general : ∀ fuel m acc, (∀ c ∈ acc, c.isDigit = true) →
      ∀ c ∈ natStrGo fuel m acc, c.isDigit = true := by
    intro fuel
    induction fuel with
    | zero => intro m acc hacc c hc; exact hacc c hc
    | succ fuel ih =>
      intro m acc hacc c hc
      rw [natStrGo] at hc
      by_cases h : m < 10
      · rw [if_pos h] at hc
        cases List.mem_cons.1 hc with
        | inl hh => subst hh; exact digitChar_isDigit _ (Nat.mod_lt _ (by omega))
        | inr hh => exact hacc c hh
      · rw [if_neg h] at hc
        apply ih (m / 10) _ _ c hc
        intro c' hc'
        cases List.mem_cons.1 hc' with
        | inl hh => subst hh; exact digitChar_isDigit _ (Nat.mod_lt _ (by omega))
        | inr hh => exact hacc c' hh
  exact general (n + 1) n [] (by simp)

/-- Decimal decode of a digit list. -/
def chsVal (l : List Char) : Nat := l.foldl (fun a c => 10 * a + (c.toNat - 48)) 0

theorem chsVal_concat (l : List Char) (c : Char) :
    chsVal (l ++ [c]) = 10 * chsVal l + (c.toNat - 48) := by
  unfold chsVal
  rw [List.foldl_append]
  rfl

theorem chsVal_natStrGo (fuel n : Nat) (h : n < fuel) :
    chsVal (natStrGo fuel n []) = n := by
  induction fuel generalizing n with
  | zero => omega
  | succ fuel ih =>
    rw [natStrGo]
    by_cases hn : n < 10
    · rw [if_pos hn]
      show chsVal [digitChar (n % 10)] = n
      unfold chsVal
      simp only [List.foldl_cons, List.foldl_nil]
      rw [digitChar_toNat _ (Nat.mod_lt _ (by omega))]
      omega
    · rw [if_neg hn]
      rw [natStrGo_append]
      rw [chsVal_concat]
      rw [ih (n / 10) (by omega)]
      rw [digitChar_toNat _ (Nat.mod_lt _ (by omega))]
      omega

theorem natStr_inj (a b : Nat) (h : natStr a = natStr b) : a = b := by
  have ha := chsVal_natStrGo (a + 1) a (by omega)
  have hb := chsVal_natStrGo (b + 1) b (by omega)
  unfold natStr at h
  have hd := congrArg String.data h
  simp only [] at hd
  rw [show (natStrGo (a + 1) a []) = (⟨natStrGo (a + 1) a []⟩ : String).data from rfl] at ha
  rw [show (natStrGo (b + 1) b []) = (⟨natStrGo (b + 1) b []⟩ : String).data from rfl] at hb
  rw [← ha, ← hb, hd]

theorem digits_append_cancel (as bs xs ys : List Char)
    (ha : ∀ c ∈ as, c.isDigit = true) (hb : ∀ c ∈ bs, c.isDigit = true)
    (hx : ∀ c, xs.head? = some c → c.isDigit = false)
    (hy : ∀ c, ys.head? = some c → c.isDigit = false)
    (heq : as ++ xs = bs ++ ys) : as = bs ∧ xs = ys := by
  induction as generalizing bs with
  | nil =>
    cases bs with
    | nil => exact ⟨rfl, by simpa using heq⟩
    | cons b bs' =>
      exfalso
      simp only [List.nil_append, List.cons_append] at heq
      have hbd : b.isDigit = true := hb b (by simp)
      rw [heq] at hx
      have := hx b rfl
      rw [this] at hbd
      cases hbd
  | cons a as' ih =>
    cases bs with
    | nil =>
      exfalso
      simp only [List.nil_append, List.cons_append] at heq
      have had : a.isDigit = true := ha a (by simp)
      rw [← heq] at hy
      have := hy a rfl
      rw [this] at had
      cases had
    | cons b bs' =>
      simp only [List.cons_append] at heq
      injection heq with h1 h2
      subst h1
      obtain ⟨hl, hr⟩ := ih bs' (fun c hc => ha c (List.mem_cons_of_mem _ hc))
        (fun c hc => hb c (List.mem_cons_of_mem _ hc)) h2
      exact ⟨by rw [hl], hr⟩

theorem mkUid_ne (k i : Nat) (lk li : String) (hki : k ≠ i)
    (hlk : ∀ c, lk.data.head? = some c → c.isDigit = false)
    (hli : ∀ c, li.data.head? = some c → c.isDigit = false) :
    mkUid k lk ≠ mkUid i li := by
  intro h
  unfold mkUid at h
  have hd := congrArg String.data h
  simp only [String.data_append] at hd
  obtain ⟨h1, _⟩ := digits_append_cancel (natStr k).data (natStr i).data lk.data li.data
    (natStr_all_digit k) (natStr_all_digit i) hlk hli hd
  exact hki (natStr_inj k i (String.ext h1))

theorem pySplit_ne_nil (sep : Char) (s : String) : pySplit sep s ≠ [] := by
  unfold pySplit
  intro h
  rw [List.map_eq_nil_iff] at h
  exact List.splitOnP_ne_nil _ _ h

theorem string_ne_empty_data (s : String) (h : s ≠ "") : s.data ≠ [] := by
  intro hc
  exact h (String.ext hc)

theorem lineElement_recon (line loc : String) (e : Element)
    (he : lineElement line loc = .ok e)
    (hstr : pyStrip line = line) (hne : line ≠ "") :
    synthLine e = line ∨ synthLine e = line ++ " " := by
  unfold lineElement at he
  cases hid : identify_linetype line with
  | error err => rw [hid] at he; cases he
  | ok ty =>
    rw [hid] at he
    simp only [ebind_ok] at he
    cases hsp : pySplit ' ' line with
    | nil => exact absurd hsp (pySplit_ne_nil ' ' line)
    | cons inst rest =>
      rw [hsp] at he
      simp only [Except.ok.injEq] at he
      subst he
      have hline : pyJoin ' ' (inst :: rest) = line := by
        rw [← hsp]; exact pyJoin_pySplit ' ' line
      have hlast : ∀ x, ((inst :: rest : List String)).getLast? = some x → x ≠ "" := by
        intro x hx
        apply pySplit_getLast_ne_empty ' ' line (string_ne_empty_data line hne)
        · intro c hc hceq
          have hws := pyStrip_last_not_ws line c (by rw [hstr]; exact hc)
          rw [hceq] at hws
          simp [isPyWs] at hws
        · rw [hsp]; exact hx
      obtain ⟨p, hpmem, hpty, hpget⟩ := identify_emap_spec line ty hid
      have harity : (emapGet ty).2.length = 0 ∨ 2 ≤ (emapGet ty).2.length := by
        rw [hpget]; exact emap_arity_not_one p hpmem
      have hnp : (resolve_ports line ty).length
          = min (emapGet ty).2.length rest.length := by
        unfold resolve_ports
        rw [hsp]
        dsimp only []
        rw [show ((inst :: rest : List String)).drop 1 = rest from rfl]
        rw [List.length_zip, List.length_take]
        omega
      have hportvals : (resolve_ports line ty).map Prod.snd
          = rest.take (resolve_ports line ty).length := by
        conv_lhs => unfold resolve_ports
        rw [hsp]
        dsimp only []
        rw [show ((inst :: rest : List String)).drop 1 = rest from rfl]
        rw [zip_map_snd]
        rw [List.take_take]
        rw [List.take_eq_take]
        rw [hnp]
        omega
      unfold synthLine
      dsimp only []
      rw [hportvals]
      rw [show ((inst :: rest : List String)).drop ((resolve_ports line ty).length + 1)
          = rest.drop (resolve_ports line ty).length from List.drop_succ_cons]
      by_cases hnp0 : (resolve_ports line ty).length = 0
      · rw [hnp0]
        simp only [List.take_zero, List.drop_zero, pyJoin_nil]
        cases rest with
        | nil =>
          right
          rw [if_neg (by simp [pyJoin_nil]), if_neg (by simp)]
          rw [← hline, pyJoin_single]
        | cons r0 rs =>
          left
          have hsane : pyJoin ' ' (r0 :: rs) ≠ "" := by
            intro hcontra
            cases pyJoin_eq_empty ' ' _ hcontra with
            | inl h0 => cases h0
            | inr h0 =>
              apply hlast "" _ rfl
              rw [h0, getLast?_cons_ne _ _ (by simp)]
              rfl
          rw [if_pos hsane, if_neg (by simp)]
          conv_rhs => rw [← hline]
          rw [pyJoin_cons ' ' inst (r0 :: rs) (by simp)]
      · have hrestne : rest ≠ [] := by
          intro h0
          rw [hnp, h0] at hnp0
          simp at hnp0
        have hpv_ne : rest.take (resolve_ports line ty).length ≠ [] := by
          intro h0
          rw [List.take_eq_nil_iff] at h0
          cases h0 with
          | inl h1 => exact hnp0 h1
          | inr h1 => exact hrestne h1
        have hsp_ne : pyJoin ' ' (rest.take (resolve_ports line ty).length) ≠ "" := by
          intro hcontra
          cases pyJoin_eq_empty ' ' _ hcontra with
          | inl h0 => exact hpv_ne h0
          | inr h0 =>
            have harity2 : 2 ≤ (emapGet ty).2.length := by
              cases harity with
              | inl h1 =>
                exfalso
                apply hnp0
                rw [hnp, h1]
                simp
              | inr h1 => exact h1
            have hlen1 : (resolve_ports line ty).length = 1 := by
              have hlen : (rest.take (resolve_ports line ty).length).length = 1 := by
                rw [h0]
                rfl
              rw [List.length_take] at hlen
              rw [hnp] at hlen ⊢
              omega
            have hrlen1 : rest.length = 1 := by
              have := hnp
              rw [hlen1] at this
              omega
            have hrest_eq : rest = [""] := by
              cases hr : rest with
              | nil => exact absurd hr hrestne
              | cons r0 rs =>
                rw [hr] at hrlen1
                simp only [List.length_cons] at hrlen1
                have hrs : rs = [] := by
                  rw [← List.length_eq_zero]
                  omega
                subst hrs
                rw [hr, hlen1] at h0
                rw [show (r0 :: ([] : List String)).take 1 = [r0] from rfl] at h0
                injection h0 with h1 _
                rw [h1]
            apply hlast "" _ rfl
            rw [hrest_eq]
            rw [getLast?_cons_ne _ _ (by simp)]
            rfl
        rw [if_pos hsp_ne]
        by_cases hargs_ne : rest.drop (resolve_ports line ty).length = []
        · right
          rw [hargs_ne, pyJoin_nil, if_neg (by simp)]
          have hrest_eq : rest.take (resolve_ports line ty).length = rest := by
            conv_rhs => rw [← List.take_append_drop (resolve_ports line ty).length rest]
            rw [hargs_ne]
            simp
          rw [hrest_eq]
          conv_rhs => rw [← hline]
          rw [pyJoin_cons ' ' inst rest hrestne]
        · left
          have hsa_ne : pyJoin ' ' (rest.drop (resolve_ports line ty).length) ≠ "" := by
            intro hcontra
            cases pyJoin_eq_empty ' ' _ hcontra with
            | inl h0 => exact hargs_ne h0
            | inr h0 =>
              apply hlast "" _ rfl
              have hrl : rest.getLast? = some "" := by
                have hdp := getLast?_drop rest (resolve_ports line ty).length
                  (by rw [h0]; simp)
                rw [h0] at hdp
                simp only [List.getLast?_singleton] at hdp
                exact hdp.symm
              rw [getLast?_cons_ne _ _ hrestne]
              exact hrl
          rw [if_pos hsa_ne]
          conv_rhs => rw [← hline]
          rw [pyJoin_cons ' ' inst rest hrestne]
          conv_rhs => rw [← List.take_append_drop (resolve_ports line ty).length rest]
          rw [pyJoin_append _ _ _ hpv_ne hargs_ne]
          apply String.ext
          simp [String.data_append, List.append_assoc]

/-- **C1** (counterexample).  The normalized (already clean) netlist
`r1 a b 1\n.control\n.subckt s x y\n.endc\nr2 c d 2` parses with `r2` at
location `root/s` — the `.subckt` line inside the control section pushed the
hierarchy but was not recorded — and after serializing and re-parsing, `r2`
sits at `root`: the sequence of elements is not reproduced. -/
theorem claim_c1_counterexample :
    clean_netlist "r1 a b 1\n.control\n.subckt s x y\n.endc\nr2 c d 2"
      = some "r1 a b 1\n.control\n.subckt s x y\n.endc\nr2 c d 2"
    ∧ ((parse "r1 a b 1\n.control\n.subckt s x y\n.endc\nr2 c d 2").map
        (fun m => m.map (fun p => (p.2.inst, p.2.location))))
      = .ok [("r1", "root"), ("r2", "root/s")]
    ∧ (((parse "r1 a b 1\n.control\n.subckt s x y\n.endc\nr2 c d 2").bind
          (fun m => parse (synthesize "Netlist" m))).map
        (fun m => m.map (fun p => (p.2.inst, p.2.location))))
      = .ok [("r1", "root"), ("r2", "root")]
    ∧ [("r1", "root"), ("r2", "root/s")] ≠ [("r1", "root"), ("r2", "root")] :=
  ⟨rfl, rfl, rfl, by decide⟩


theorem sfoldl_append (xs : List String) (a : String) :
    List.foldl (fun r s => r ++ s) a xs = a ++ List.foldl (fun r s => r ++ s) "" xs := by
  induction xs generalizing a with
  | nil => apply String.ext; simp [String.data_append]
  | cons x xs ih =>
    simp only [List.foldl_cons]
    rw [ih (a ++ x), ih ("" ++ x)]
    apply String.ext
    simp [String.data_append, List.append_assoc]

theorem sjoin_cons (x : String) (xs : List String) :
    String.join (x :: xs) = x ++ String.join xs := by
  unfold String.join
  simp only [List.foldl_cons]
  rw [sfoldl_append xs ("" ++ x)]
  apply String.ext
  simp [String.data_append]

theorem synthesize_as_join (f : String) (m : List (String × Element)) :
    synthesize f m
      = pyJoin '\n' (("* " ++ f) :: "" :: (m.flatMap (fun p => partLines p.2) ++ [""])) := by
  have key : ∀ (mm : List (String × Element)),
      String.join (mm.map (fun p =>
        synthLine p.2 ++ "\n" ++ (if p.2.inst = ".ends" then "\n" else "")))
      = pyJoin '\n' (mm.flatMap (fun p => partLines p.2) ++ [""]) := by
    intro mm
    induction mm with
    | nil =>
      rw [List.map_nil, List.flatMap_nil, List.nil_append, pyJoin_single]
      rfl
    | cons p mm' ih =>
      rw [List.map_cons, sjoin_cons, ih, List.flatMap_cons]
      unfold partLines
      by_cases hends : p.2.inst = ".ends"
      · rw [if_pos hends, if_pos hends]
        simp only [List.cons_append, List.nil_append]
        rw [pyJoin_cons '\n' _ _ (by simp), pyJoin_cons '\n' "" _ (by simp)]
        apply String.ext
        simp [String.data_append]
      · rw [if_neg hends, if_neg hends]
        simp only [List.cons_append, List.nil_append]
        rw [pyJoin_cons '\n' _ _ (by simp)]
        apply String.ext
        simp [String.data_append]
  unfold synthesize
  rw [key]
  rw [pyJoin_cons '\n' _ _ (by simp)]
  rw [pyJoin_cons '\n' "" _ (by simp)]
  apply String.ext
  simp [String.data_append]

theorem synthesize_lines (f : String) (m : List (String × Element))
    (hf : ¬ '\n' ∈ f.data)
    (hm : ∀ p ∈ m, ¬ '\n' ∈ (synthLine p.2).data) :
    pySplit '\n' (synthesize f m)
      = ("* " ++ f) :: "" :: (m.flatMap (fun p => partLines p.2) ++ [""]) := by
  rw [synthesize_as_join]
  apply pySplit_pyJoin
  · simp
  · intro x hx
    rcases List.mem_cons.1 hx with rfl | hx2
    · intro hmem
      rw [String.data_append] at hmem
      rcases List.mem_append.1 hmem with h | h
      · simp at h
      · exact hf h
    rcases List.mem_cons.1 hx2 with rfl | hx3
    · simp
    rcases List.mem_append.1 hx3 with h | h
    · rw [List.mem_flatMap] at h
      obtain ⟨p, hp, hpl⟩ := h
      unfold partLines at hpl
      rcases List.mem_cons.1 hpl with rfl | h2
      · exact hm p hp
      · by_cases hends : p.2.inst = ".ends"
        · rw [if_pos hends] at h2
          simp only [List.mem_singleton] at h2
          subst h2
          simp
        · rw [if_neg hends] at h2
          simp at h2
    · simp only [List.mem_singleton] at h
      subst h
      simp

theorem goodKeys_nil (bound : Nat) : GoodKeys [] bound := by
  intro p hp
  simp at hp

theorem goodKeys_mono (d : List (String × Element)) (b b' : Nat)
    (h : GoodKeys d b) (hle : b ≤ b') : GoodKeys d b' := by
  intro p hp
  obtain ⟨k, l, hk, he, hd⟩ := h p hp
  exact ⟨k, l, by omega, he, hd⟩

theorem goodKeys_append (d : List (String × Element)) (b : Nat) (l : String) (e : Element)
    (h : GoodKeys d b)
    (hl : ∀ c, l.data.head? = some c → c.isDigit = false) :
    GoodKeys (d ++ [(mkUid b l, e)]) (b + 1) := by
  intro p hp
  rcases List.mem_append.1 hp with hmem | hmem
  · exact goodKeys_mono d b (b + 1) h (by omega) p hmem
  · simp only [List.mem_singleton] at hmem
    subst hmem
    exact ⟨b, l, by omega, rfl, hl⟩

theorem findUid_none (d : List (String × Element)) (b j : Nat) (l : String)
    (h : GoodKeys d b) (hbj : b ≤ j)
    (hl : ∀ c, l.data.head? = some c → c.isDigit = false) :
    (d.find? (fun p => p.1 = mkUid j l)).isSome = false := by
  rw [Bool.eq_false_iff]
  intro hsome
  rw [List.find?_isSome] at hsome
  obtain ⟨p, hp, hpred⟩ := hsome
  simp only [decide_eq_true_eq] at hpred
  obtain ⟨k, lk, hk, he, hdk⟩ := h p hp
  rw [he] at hpred
  exact mkUid_ne k j lk l (by omega) hdk hl hpred

/-- `lstrip` is the identity on a stripped string. -/
theorem pyLstrip_of_stripped (s : String) (h : pyStrip s = s) : pyLstrip s = s := by
  unfold pyLstrip
  have hd : s.data.dropWhile isPyWs = s.data := by
    apply dropWhile_eq_self_of_head
    intro c hc
    cases hds : s.data with
    | nil => rw [hds] at hc; cases hc
    | cons c0 t =>
      rw [hds] at hc
      simp only [List.head?_cons, Option.some.injEq] at hc
      rw [← hc]
      apply pyStrip_head_not_ws s c0 t
      rw [h, hds]
  rw [hd]

/-- A line accepted by the classifier does not start with a digit. -/
theorem identify_head_not_digit (line ty : String)
    (h : identify_linetype line = .ok ty) (hstr : pyStrip line = line) :
    ∀ c, line.data.head? = some c → c.isDigit = false := by
  intro c hc
  unfold identify_linetype at h
  rw [pyLstrip_of_stripped line hstr] at h
  dsimp only [] at h
  cases hd : line.data with
  | nil => rw [hd] at h; cases h
  | cons c0 rest0 =>
    rw [hd] at hc
    simp only [List.head?_cons, Option.some.injEq] at hc
    rw [← hc]
    cases hrest : rest0 with
    | nil => rw [hd, hrest] at h; cases h
    | cons c1 rest =>
      rw [hd, hrest] at h
      dsimp only [] at h
      by_cases hdig : c0.isDigit = true
      · exfalso
        have hup : charUpper c0 = c0 := toUpper_of_isDigit c0 hdig
        by_cases hf : (emap.find? (fun p => p.1 =
            (if charUpper c0 = 'X' && (charUpper c1 = 'M' || charUpper c1 = 'C') then
              String.mk [charUpper c0, charUpper c1] else String.mk [charUpper c0]))).isSome
        · obtain ⟨p, hp⟩ := Option.isSome_iff_exists.mp hf
          have hpred := List.find?_some hp
          simp only [decide_eq_true_eq] at hpred
          have hmem := List.mem_of_find?_eq_some hp
          have hhead := emap_head_not_digit p hmem
          rw [hpred] at hhead
          by_cases hx : (charUpper c0 = 'X' && (charUpper c1 = 'M' || charUpper c1 = 'C')) = true
          · rw [if_pos hx] at hhead
            rw [show (String.mk [charUpper c0, charUpper c1]).data.head? = some (charUpper c0)
                from rfl] at hhead
            rw [hup] at hhead
            simp only [Option.all_some, Bool.not_eq_true'] at hhead
            rw [hdig] at hhead
            cases hhead
          · rw [if_neg hx] at hhead
            rw [show (String.mk [charUpper c0]).data.head? = some (charUpper c0)
                from rfl] at hhead
            rw [hup] at hhead
            simp only [Option.all_some, Bool.not_eq_true'] at hhead
            rw [hdig] at hhead
            cases hhead
        · rw [if_neg hf] at h
          cases h
      · exact Bool.eq_false_iff.mpr hdig

/-- A line whose strip is skipped makes `parseStep` a no-op. -/
theorem parseStep_skip (i : Nat) (l : String) (st : PState)
    (h : isSkip (pyStrip l) = true) : parseStep i l st = .ok st := by
  unfold parseStep
  dsimp only []
  rw [h]
  rfl

/-- `Except.bind` on a success. -/
theorem exbind_ok (a : A) (f : A → Except E B) :
    Except.bind (Except.ok a : Except E A) f = f a := rfl

/-- `Except.bind` on an error. -/
theorem exbind_err (e : E) (f : A → Except E B) :
    Except.bind (Except.error e : Except E A) f = .error e := rfl

/-- A non-skipped line's step is the composition of the three stages. -/
theorem parseStep_decompose (i : Nat) (r : String) (st : PState)
    (h : isSkip (pyStrip r) = false) :
    parseStep i r st =
      (subcktStep (pyStrip r) st).bind (fun sta =>
        (ctlOrElemStep i (pyStrip r) sta).bind (fun stb =>
          endsStep (pyStrip r) stb)) := by
  unfold parseStep subcktStep ctlOrElemStep endsStep
  dsimp only []
  rw [if_neg (by simp [h])]
  by_cases hsub : isSubcktPat (pyStrip r) = true
  · rw [if_pos hsub, if_pos hsub]
    cases hg : (pySplit ' ' (pyStrip r)).get? 1 with
    | none => rfl
    | some name =>
      dsimp only []
      rw [ebind_ok, exbind_ok]
      by_cases hc : (isControlPat (pyStrip r) || st.insideCtl) = true
      · rw [if_pos hc, if_pos hc]
        rw [ebind_ok, exbind_ok]
      · rw [if_neg hc, if_neg hc]
        cases hle : lineElement (pyStrip r)
            (pyJoin '/' (st.hierarchy ++ [name])) with
        | error err => rfl
        | ok e =>
          conv_rhs => rw [ebind_ok]
          rw [ebind_ok]
          by_cases hf : (List.find?
              (fun p => decide (p.1 = mkUid i (pyStrip r)))
              st.elements).isSome = true
          · rw [if_pos hf, if_pos hf]
            rfl
          · rw [if_neg hf, if_neg hf]
            rfl
  · rw [if_neg hsub, if_neg hsub]
    rw [ebind_ok, exbind_ok]
    by_cases hc : (isControlPat (pyStrip r) || st.insideCtl) = true
    · rw [if_pos hc, if_pos hc]
      rw [ebind_ok, exbind_ok]
    · rw [if_neg hc, if_neg hc]
      cases hle : lineElement (pyStrip r) (pyJoin '/' st.hierarchy) with
      | error err => rfl
      | ok e =>
        conv_rhs => rw [ebind_ok]
        rw [ebind_ok]
        by_cases hf : (List.find?
            (fun p => decide (p.1 = mkUid i (pyStrip r)))
            st.elements).isSome = true
        · rw [if_pos hf, if_pos hf]
          rfl
        · rw [if_neg hf, if_neg hf]
          rfl

/-- The `.subckt` stage only grows the hierarchy; mirrored on any state with
the same hierarchy. -/
theorem subcktStep_mirror (line : String) (st1 sta st2 : PState)
    (h : subcktStep line st1 = .ok sta)
    (hh : st2.hierarchy = st1.hierarchy) :
    (∃ st2a, subcktStep line st2 = .ok st2a ∧
      st2a.insideCtl = st2.insideCtl ∧
      st2a.hierarchy = sta.hierarchy ∧
      st2a.elements = st2.elements) ∧
    sta.insideCtl = st1.insideCtl ∧ sta.elements = st1.elements := by
  unfold subcktStep at h ⊢
  by_cases hsub : isSubcktPat line = true
  · rw [if_pos hsub] at h ⊢
    cases hg : (pySplit ' ' line).get? 1 with
    | none => rw [hg] at h; cases h
    | some name =>
      rw [hg] at h
      cases h
      refine ⟨⟨_, rfl, rfl, ?_, rfl⟩, rfl, rfl⟩
      show st2.hierarchy ++ [name] = st1.hierarchy ++ [name]
      rw [hh]
  · rw [if_neg hsub] at h ⊢
    cases h
    exact ⟨⟨st2, rfl, rfl, by rw [hh], rfl⟩, rfl, rfl⟩

/-- The control/element stage mirrored: same flag and hierarchy on entry,
fresh key on the mirror side. -/
theorem ctlOrElemStep_mirror (i j : Nat) (line : String) (sta stb st2a : PState)
    (h : ctlOrElemStep i line sta = .ok stb)
    (hic : st2a.insideCtl = sta.insideCtl)
    (hh : st2a.hierarchy = sta.hierarchy)
    (hfresh : (st2a.elements.find? (fun p => p.1 = mkUid j line)).isSome = false) :
    (∃ st2b, ctlOrElemStep j line st2a = .ok st2b ∧
      st2b.insideCtl = stb.insideCtl ∧
      st2b.hierarchy = st2a.hierarchy ∧
      st2b.elements = st2a.elements ++
        (stb.elements.drop sta.elements.length).map
          (fun p => (mkUid j line, p.2))) ∧
    stb.hierarchy = sta.hierarchy := by
  unfold ctlOrElemStep at h ⊢
  by_cases hc : (isControlPat line || sta.insideCtl) = true
  · rw [if_pos hc] at h
    rw [if_pos (by rw [hic]; exact hc)]
    cases h
    refine ⟨⟨_, rfl, rfl, rfl, ?_⟩, rfl⟩
    show st2a.elements = st2a.elements ++ _
    rw [show sta.elements.drop sta.elements.length = [] from List.drop_length sta.elements]
    simp
  · rw [if_neg hc] at h
    rw [if_neg (by rw [hic]; exact hc)]
    cases hle : lineElement line (pyJoin '/' sta.hierarchy) with
    | error err => rw [hle] at h; cases h
    | ok e =>
      rw [hle, ebind_ok] at h
      dsimp only [] at h
      rw [hh, hle, ebind_ok]
      dsimp only []
      by_cases hf : ((sta.elements.find?
          (fun p => p.1 = mkUid i line)).isSome : Prop)
      · rw [if_pos hf] at h
        cases h
      · rw [if_neg hf] at h
        cases h
        rw [if_neg (by rw [hfresh]; simp)]
        refine ⟨⟨_, rfl, hic, rfl, ?_⟩, rfl⟩
        show st2a.elements ++ [(mkUid j line, e)] = st2a.elements ++ _
        rw [show (sta.elements ++
            [(mkUid i line, e)]).drop sta.elements.length
            = [(mkUid i line, e)] from
            List.drop_left sta.elements [(mkUid i line, e)]]
        rfl

/-- The element branch of the control/element stage, on the original run:
it records exactly one element. -/
theorem ctlOrElemStep_elem (i : Nat) (line : String) (sta stb : PState)
    (h : ctlOrElemStep i line sta = .ok stb)
    (hcc : (isControlPat line || sta.insideCtl) = false) :
    ∃ e, lineElement line (pyJoin '/' sta.hierarchy) = .ok e ∧
      stb.elements = sta.elements ++ [(mkUid i line, e)] ∧
      stb.insideCtl = sta.insideCtl := by
  unfold ctlOrElemStep at h
  rw [if_neg (by rw [hcc]; simp)] at h
  cases hle : lineElement line (pyJoin '/' sta.hierarchy) with
  | error err => rw [hle] at h; cases h
  | ok e =>
    rw [hle, ebind_ok] at h
    dsimp only [] at h
    by_cases hf : ((sta.elements.find?
        (fun p => p.1 = mkUid i line)).isSome : Prop)
    · rw [if_pos hf] at h
      cases h
    · rw [if_neg hf] at h
      cases h
      exact ⟨e, rfl, rfl, rfl⟩

/-- The `.ends` stage only shrinks the hierarchy; mirrored on any state with
the same hierarchy. -/
theorem endsStep_mirror (line : String) (stb st1' st2b : PState)
    (h : endsStep line stb = .ok st1')
    (hh : st2b.hierarchy = stb.hierarchy) :
    (∃ st2c, endsStep line st2b = .ok st2c ∧
      st2c.insideCtl = st2b.insideCtl ∧
      st2c.hierarchy = st1'.hierarchy ∧
      st2c.elements = st2b.elements) ∧
    st1'.insideCtl = stb.insideCtl ∧ st1'.elements = stb.elements := by
  unfold endsStep at h ⊢
  by_cases hends : isEndsPat line = true
  · rw [if_pos hends] at h ⊢
    cases hhier : stb.hierarchy with
    | nil => rw [hhier] at h; cases h
    | cons a t =>
      rw [hhier] at h
      cases h
      have h2 : st2b.hierarchy = a :: t := by rw [hh, hhier]
      rw [h2]
      exact ⟨⟨_, rfl, rfl, rfl, rfl⟩, rfl, rfl⟩
  · rw [if_neg hends] at h ⊢
    cases h
    exact ⟨⟨st2b, rfl, rfl, by rw [hh], rfl⟩, rfl, rfl⟩

/-- A successful element build includes a successful classification. -/
theorem lineElement_identify (line loc : String) (e : Element)
    (h : lineElement line loc = .ok e) :
    ∃ ty, identify_linetype line = .ok ty := by
  unfold lineElement at h
  cases hid : identify_linetype line with
  | error err => rw [hid, ebind_err] at h; cases h
  | ok ty => exact ⟨ty, rfl⟩

/-- One parse-loop step is congruent in everything but the recorded keys:
run on a second raw line with the same stripped text, from a state with the
same flag and hierarchy and a fresh key, it succeeds and records the same
element value. -/
theorem parseStep_mirror (i j : Nat) (r1 r2 : String) (st1 st1' st2 : PState)
    (h : parseStep i r1 st1 = .ok st1')
    (hs : pyStrip r2 = pyStrip r1)
    (hic : st2.insideCtl = st1.insideCtl)
    (hh : st2.hierarchy = st1.hierarchy)
    (hfresh : (st2.elements.find?
      (fun p => p.1 = mkUid j (pyStrip r1))).isSome = false) :
    ∃ st2', parseStep j r2 st2 = .ok st2' ∧
      st2'.insideCtl = st1'.insideCtl ∧
      st2'.hierarchy = st1'.hierarchy ∧
      st2'.elements = st2.elements ++
        (st1'.elements.drop st1.elements.length).map
          (fun p => (mkUid j (pyStrip r1), p.2)) := by
  by_cases hskip : isSkip (pyStrip r1) = true
  · rw [parseStep_skip i r1 st1 hskip] at h
    cases h
    refine ⟨st2, parseStep_skip j r2 st2 (by rw [hs]; exact hskip), hic, hh, ?_⟩
    rw [List.drop_length]
    simp
  · have hskip' : isSkip (pyStrip r1) = false := by
      rw [Bool.eq_false_iff]; exact hskip
    rw [parseStep_decompose i r1 st1 hskip'] at h
    cases hsa : subcktStep (pyStrip r1) st1 with
    | error err => rw [hsa, exbind_err] at h; cases h
    | ok sta =>
    rw [hsa, exbind_ok] at h
    cases hsb : ctlOrElemStep i (pyStrip r1) sta with
    | error err => rw [hsb, exbind_err] at h; cases h
    | ok stb =>
    rw [hsb, exbind_ok] at h
    obtain ⟨⟨st2a, hs2a, hicA2, hhA2, helA2⟩, hicA, helA⟩ :=
      subcktStep_mirror (pyStrip r1) st1 sta st2 hsa hh
    have hic2 : st2a.insideCtl = sta.insideCtl := by
      rw [hicA2, hic, hicA]
    have hfresh2 : (st2a.elements.find?
        (fun p => p.1 = mkUid j (pyStrip r1))).isSome = false := by
      rw [helA2]; exact hfresh
    obtain ⟨⟨st2b, hs2b, hicB2, hhB2, helB2⟩, hhB⟩ :=
      ctlOrElemStep_mirror i j (pyStrip r1) sta stb st2a hsb hic2 hhA2 hfresh2
    have hhb2 : st2b.hierarchy = stb.hierarchy := by
      rw [hhB2, hhA2, hhB]
    obtain ⟨⟨st2c, hs2c, hicC2, hhC2, helC2⟩, hicC, helC⟩ :=
      endsStep_mirror (pyStrip r1) stb st1' st2b h hhb2
    refine ⟨st2c, ?_, ?_, hhC2, ?_⟩
    · rw [parseStep_decompose j r2 st2 (by rw [hs]; exact hskip'), hs]
      rw [hs2a, exbind_ok, hs2b, exbind_ok]
      exact hs2c
    · rw [hicC2, hicB2, hicC]
    · rw [helC2, helB2, helA2, helC, helA]

/-- The blank separator line emitted after `.ends` is skipped on re-parse. -/
theorem parseStep_empty (j : Nat) (st : PState) : parseStep j "" st = .ok st :=
  parseStep_skip j "" st (by decide)

/-- A non-skipped (stripped) line is non-empty. -/
theorem ne_empty_of_not_skip (s : String) (h : isSkip s = false) : s ≠ "" := by
  intro he
  rw [he] at h
  have : isSkip "" = true := by decide
  rw [this] at h
  cases h

/-- A control-section line (no hierarchy patterns) flips the flag and does
nothing else. -/
theorem parseStep_ctl (i : Nat) (r : String) (st : PState)
    (hskip : isSkip (pyStrip r) = false)
    (hsub : isSubcktPat (pyStrip r) = false)
    (hends : isEndsPat (pyStrip r) = false)
    (hc : (isControlPat (pyStrip r) || st.insideCtl) = true) :
    parseStep i r st = .ok { st with insideCtl := !isEndcPat (pyStrip r) } := by
  rw [parseStep_decompose i r st hskip]
  unfold subcktStep
  rw [if_neg (by rw [hsub]; simp), exbind_ok]
  unfold ctlOrElemStep
  rw [if_pos hc, exbind_ok]
  unfold endsStep
  rw [if_neg (by rw [hends]; simp)]

/-- Re-parsing the serialized lines of the elements recorded by a stretch of
the original parse reproduces the same element values, preserving flag and
hierarchy, under fresh indices. -/
theorem reparse_go (st1' : PState) :
    ∀ (ls : List String) (i : Nat) (st1 : PState),
      goParse i ls st1 = .ok st1' →
      ctlScan ls st1.insideCtl = true →
      (∀ l ∈ ls, ¬ '\n' ∈ l.data) →
      ∀ (j : Nat) (st2 : PState),
        st2.insideCtl = false →
        st2.hierarchy = st1.hierarchy →
        GoodKeys st2.elements j →
        ∃ (Δ : List (String × Element)) (st2' : PState),
          st1'.elements = st1.elements ++ Δ ∧
          (∀ p ∈ Δ, ¬ '\n' ∈ (synthLine p.2).data) ∧
          goParse j (Δ.flatMap (fun p => partLines p.2)) st2 = .ok st2' ∧
          st2'.insideCtl = false ∧
          st2'.hierarchy = st1'.hierarchy ∧
          st2'.elements.map Prod.snd
            = st2.elements.map Prod.snd ++ Δ.map Prod.snd ∧
          GoodKeys st2'.elements
            (j + (Δ.flatMap (fun p => partLines p.2)).length) := by
  intro ls
  induction ls with
  | nil =>
    intro i st1 h1 hctl hnl j st2 h2c h2h h2g
    simp only [goParse] at h1
    cases h1
    exact ⟨[], st2, by simp, by simp, rfl, h2c, h2h, by simp, by simpa using h2g⟩
  | cons l rest ih =>
    intro i st1 h1 hctl hnl j st2 h2c h2h h2g
    simp only [goParse] at h1
    cases hstep : parseStep i l st1 with
    | error err => rw [hstep, ebind_err] at h1; cases h1
    | ok st1m =>
    rw [hstep, ebind_ok] at h1
    simp only [ctlScan] at hctl
    have hnl' : ∀ x ∈ rest, ¬ '\n' ∈ x.data :=
      fun x hx => hnl x (List.mem_cons_of_mem l hx)
    by_cases hskip : isSkip (pyStrip l) = true
    · rw [if_pos hskip] at hctl
      have hst1m : st1m = st1 := by
        have hx := parseStep_skip i l st1 hskip
        rw [hx] at hstep
        cases hstep
        rfl
      subst hst1m
      exact ih (i + 1) st1m h1 hctl hnl' j st2 h2c h2h h2g
    · have hskipF : isSkip (pyStrip l) = false := by
        rw [Bool.eq_false_iff]; exact hskip
      rw [if_neg hskip] at hctl
      by_cases hcc : (isControlPat (pyStrip l) || st1.insideCtl) = true
      · rw [if_pos hcc] at hctl
        simp only [Bool.and_eq_true, Bool.not_eq_true'] at hctl
        obtain ⟨⟨hsubF, hendsF⟩, hctl'⟩ := hctl
        have hx := parseStep_ctl i l st1 hskipF hsubF hendsF hcc
        rw [hx] at hstep
        cases hstep
        obtain ⟨Δ, st2x, hA, hB, hC, hD, hE, hF, hG⟩ :=
          ih (i + 1) _ h1 hctl' hnl' j st2 h2c h2h h2g
        exact ⟨Δ, st2x, hA, hB, hC, hD, hE, hF, hG⟩
      · have hccF : (isControlPat (pyStrip l) || st1.insideCtl) = false := by
          rw [Bool.eq_false_iff]; exact hcc
        have hst1ic : st1.insideCtl = false := by
          cases hbc : st1.insideCtl with
          | false => rfl
          | true => rw [hbc] at hccF; simp at hccF
        rw [if_neg hcc] at hctl
        -- decompose the original step
        have hstep0 := hstep
        rw [parseStep_decompose i l st1 hskipF] at hstep
        cases hsa : subcktStep (pyStrip l) st1 with
        | error err => rw [hsa, exbind_err] at hstep; cases hstep
        | ok sta =>
        rw [hsa, exbind_ok] at hstep
        cases hsb : ctlOrElemStep i (pyStrip l) sta with
        | error err => rw [hsb, exbind_err] at hstep; cases hstep
        | ok stb =>
        rw [hsb, exbind_ok] at hstep
        obtain ⟨_, hicA, helA⟩ :=
          subcktStep_mirror (pyStrip l) st1 sta st1 hsa rfl
        have hccA : (isControlPat (pyStrip l) || sta.insideCtl) = false := by
          rw [hicA]; exact hccF
        obtain ⟨e, hle, helB, hicB⟩ :=
          ctlOrElemStep_elem i (pyStrip l) sta stb hsb hccA
        obtain ⟨_, hicC, helC⟩ :=
          endsStep_mirror (pyStrip l) stb st1m stb hstep rfl
        obtain ⟨ty, hid⟩ := lineElement_identify _ _ _ hle
        have hlineS : pyStrip (pyStrip l) = pyStrip l := pyStrip_idem l
        have hdigit := identify_head_not_digit (pyStrip l) ty hid hlineS
        have hfresh : (st2.elements.find?
            (fun p => p.1 = mkUid j (pyStrip l))).isSome = false :=
          findUid_none st2.elements j j (pyStrip l) h2g (Nat.le_refl j) hdigit
        have hneq : pyStrip l ≠ "" := ne_empty_of_not_skip _ hskipF
        have hrecon := lineElement_recon (pyStrip l) _ e hle hlineS hneq
        have hstripSyn : pyStrip (synthLine e) = pyStrip l := by
          rcases hrecon with hr | hr
          · rw [hr]; exact pyStrip_idem l
          · rw [hr]; exact pyStrip_append_space (pyStrip l) (pyStrip_idem l)
        have hic0 : st2.insideCtl = st1.insideCtl := by rw [h2c, hst1ic]
        obtain ⟨st2m, hps2, hmic, hmh, hmel⟩ :=
          parseStep_mirror i j l (synthLine e) st1 st1m st2
            hstep0 hstripSyn hic0 h2h hfresh
        have hΔ1 : st1m.elements = st1.elements ++ [(mkUid i (pyStrip l), e)] := by
          rw [helC, helB, helA]
        have hmel' : st2m.elements
            = st2.elements ++ [(mkUid j (pyStrip l), e)] := by
          rw [hmel, hΔ1]
          rw [show (st1.elements ++
              [(mkUid i (pyStrip l), e)]).drop st1.elements.length
              = [(mkUid i (pyStrip l), e)] from
              List.drop_left st1.elements [(mkUid i (pyStrip l), e)]]
          rfl
        have hst1mic : st1m.insideCtl = st1.insideCtl := by
          rw [hicC, hicB, hicA]
        have hg1 : GoodKeys st2m.elements (j + 1) := by
          rw [hmel']
          exact goodKeys_append st2.elements j (pyStrip l) e h2g hdigit
        have hpart : goParse j (partLines e) st2 = .ok st2m := by
          unfold partLines
          by_cases hinst : e.inst = ".ends"
          · rw [if_pos hinst]
            simp only [goParse]
            rw [hps2, ebind_ok, parseStep_empty, ebind_ok]
          · rw [if_neg hinst]
            simp only [goParse]
            rw [hps2, ebind_ok]
        have hgn : GoodKeys st2m.elements (j + (partLines e).length) := by
          apply goodKeys_mono st2m.elements (j + 1) _ hg1
          have : 1 ≤ (partLines e).length := by
            unfold partLines
            by_cases hinst : e.inst = ".ends" <;> simp [hinst]
          omega
        obtain ⟨Δ', st2x, hA, hB, hC, hD, hE, hF, hG⟩ :=
          ih (i + 1) st1m h1 (by rw [hst1mic]; exact hctl) hnl'
            (j + (partLines e).length) st2m
            (by rw [hmic, hst1mic, hst1ic]) hmh hgn
        refine ⟨(mkUid i (pyStrip l), e) :: Δ', st2x, ?_, ?_, ?_, hD, hE, ?_, ?_⟩
        · rw [hA, hΔ1, List.append_assoc]
          rfl
        · intro p hp
          rcases List.mem_cons.1 hp with rfl | hp'
          · intro hmem
            rcases hrecon with hr | hr
            · rw [hr] at hmem
              exact hnl l (List.mem_cons_self l rest) (mem_pyStrip l '\n' hmem)
            · rw [hr] at hmem
              rw [String.data_append] at hmem
              rcases List.mem_append.1 hmem with hm | hm
              · exact hnl l (List.mem_cons_self l rest) (mem_pyStrip l '\n' hm)
              · simp at hm
          · exact hB p hp'
        · rw [List.flatMap_cons]
          rw [goParse_append]
          rw [hpart]
          rw [exbind_ok]
          exact hC
        · rw [hF, hmel']
          simp
        · rw [List.flatMap_cons, List.length_append]
          rw [show j + ((partLines e).length
              + (Δ'.flatMap (fun p => partLines p.2)).length)
              = j + (partLines e).length
                + (Δ'.flatMap (fun p => partLines p.2)).length from by omega]
          exact hG

/-- The header comment line `* <filename>` is skipped on re-parse. -/
theorem isSkip_star (s : String) (rest : List Char) (hd : s.data = '*' :: rest) :
    isSkip (pyStrip s) = true := by
  have hws : isPyWs '*' = false := by decide
  have hu : (pyStrip s).data.head? = some '*' := by
    unfold pyStrip
    show (((s.data.dropWhile isPyWs).reverse.dropWhile isPyWs).reverse).head? = _
    rw [hd]
    rw [List.dropWhile_cons, if_neg (by rw [hws]; simp)]
    have hne : (('*' :: rest).reverse.dropWhile isPyWs) ≠ [] := by
      intro hnil
      rw [List.dropWhile_eq_nil_iff] at hnil
      have := hnil '*' (by simp)
      rw [hws] at this
      cases this
    rw [List.head?_reverse]
    rw [getLast?_dropWhile isPyWs _ hne]
    rw [List.getLast?_reverse]
    rfl
  cases ht : (pyStrip s).data with
  | nil => rw [ht] at hu; cases hu
  | cons c t =>
    rw [ht] at hu
    simp only [List.head?_cons, Option.some.injEq] at hu
    subst hu
    unfold isSkip
    rw [ht]
    rw [List.dropWhile_cons, if_neg (by rw [hws]; simp)]
    simp

/-- Claim C1 (amended).  The round trip holds for every normalized netlist in
which no skipped or control-section line matches the hierarchy push/pop
regexes (condition `ctlScan`) and no line contains a newline character:
parsing the lines, serializing the model with `synthesize`, and re-parsing
the serialized text yields a model with the same sequence of element values
(instance, category, ports, args and location at every position; only the
md5 identifiers differ, as they hash the new line indices). -/
theorem claim_c1_roundtrip (ls : List String) (m : List (String × Element)) (f : String)
    (hnl : ∀ l ∈ ls, ¬ '\n' ∈ l.data)
    (hctl : ctlScan ls false = true)
    (h1 : parseLines ls = .ok m)
    (hf : ¬ '\n' ∈ f.data) :
    ∃ m2, parse (synthesize f m) = .ok m2 ∧
      m2.map Prod.snd = m.map Prod.snd := by
  unfold parseLines at h1
  cases hgo : goParse 0 ls initPState with
  | error err => rw [hgo] at h1; cases h1
  | ok st1' =>
  rw [hgo] at h1
  cases h1
  obtain ⟨Δ, st2x, hA, hB, hC, hD, hE, hF, hG⟩ :=
    reparse_go st1' ls 0 initPState hgo hctl hnl 2 initPState rfl rfl
      (goodKeys_nil 2)
  have hA' : st1'.elements = Δ := by
    rw [hA]
    rfl
  have hm : ∀ p ∈ st1'.elements, ¬ '\n' ∈ (synthLine p.2).data := by
    intro p hp
    exact hB p (by rw [← hA']; exact hp)
  have hsplit := synthesize_lines f st1'.elements hf hm
  have hstar : isSkip (pyStrip ("* " ++ f)) = true := by
    apply isSkip_star ("* " ++ f) (' ' :: f.data)
    rw [String.data_append]
    rfl
  have hC' : goParse 2 (st1'.elements.flatMap (fun p => partLines p.2))
      initPState = .ok st2x := by
    rw [hA']
    exact hC
  have hrun : goParse 0 (("* " ++ f) :: "" ::
      (st1'.elements.flatMap (fun p => partLines p.2) ++ [""]))
      initPState = .ok st2x := by
    simp only [goParse]
    rw [parseStep_skip 0 _ initPState hstar, ebind_ok]
    rw [parseStep_empty 1 initPState, ebind_ok]
    rw [goParse_append]
    rw [hC']
    rw [exbind_ok]
    simp only [goParse]
    rw [parseStep_empty _ st2x, ebind_ok]
  refine ⟨st2x.elements, ?_, ?_⟩
  · unfold parse parseLines
    rw [hsplit, hrun]
    rfl
  · rw [hF, hA']
    rfl

/-- Witness for the amended C1 round trip, on the one-line netlist
`r1 a b 1k`. -/
theorem claim_c1_roundtrip_witness :
    ∃ m m2, parseLines ["r1 a b 1k"] = .ok m ∧
      parse (synthesize "net" m) = .ok m2 ∧
      m2.map Prod.snd = m.map Prod.snd := by
  obtain ⟨m, hm⟩ : ∃ m, parseLines ["r1 a b 1k"] = .ok m := ⟨_, rfl⟩
  obtain ⟨m2, h2, h3⟩ := claim_c1_roundtrip ["r1 a b 1k"] m "net"
    (by decide) (by decide) hm (by decide)
  exact ⟨m, m2, hm, h2, h3⟩

end Ngsim
